import Mathlib

/-!
Verification of the property-file editing tool (`p4_tool`).

The source is Python; we shallowly embed the relevant functions over
`List Char` strings and `List (Str × Str)` insertion-ordered dictionaries,
mirroring the Python string/dict primitives (`strip`, `split(c, 1)`,
`startswith`, `endswith`, substring membership, `dict.__setitem__`,
`del dict[k]`) as executable Lean functions.
-/

namespace P4Tool

/-- A Python string, modelled as a list of characters. -/
abbrev Str := List Char

/-- One line of a file as produced by `readlines()` (trailing newline kept). -/
abbrev Line := Str

/-- Convert a Lean string literal to the `Str` model. -/
def str (s : String) : Str := s.toList

/-- The whitespace characters relevant to Python `str.strip` on the inputs
this tool handles. -/
def isWS (c : Char) : Bool := c == ' ' || c == '\t' || c == '\n' || c == '\r'

/-- Python `s.lstrip()`. -/
def lstrip (s : Str) : Str := s.dropWhile isWS

/-- Python `s.rstrip()`. -/
def rstrip (s : Str) : Str := (s.reverse.dropWhile isWS).reverse

/-- Python `s.strip()`. -/
def strip (s : Str) : Str := rstrip (lstrip s)

/-- The leading whitespace of a line: Python `line[:len(line) - len(line.lstrip())]`. -/
def leadingWS (s : Str) : Str := s.takeWhile isWS

/-- Python substring test `pat in s`. -/
def containsSub (pat : Str) (s : Str) : Bool :=
  match s with
  | [] => pat.isEmpty
  | _ :: t => pat.isPrefixOf s || containsSub pat t

/-- Python `s.startswith(p)`. -/
def startsWith (p s : Str) : Bool := p.isPrefixOf s

/-- Python `s.endswith(p)`. -/
def endsWith (p s : Str) : Bool := p.isSuffixOf s

/-- Python `s.split(c, 1)` for a single-character separator, returning the
parts before and after the first occurrence; on a separator-free string the
first component is the whole string (all call sites guard on containment). -/
def splitOnce (c : Char) : Str → Str × Str
  | [] => ([], [])
  | x :: t =>
    if x == c then ([], t)
    else
      let p := splitOnce c t
      (x :: p.1, p.2)

/-- A Python `dict` with `Str` keys and values: an insertion-ordered
association list with (by construction) unique keys. -/
abbrev PDict := List (Str × Str)

/-- Python `d[k]` lookup (first matching key). -/
def dget? (d : PDict) (k : Str) : Option Str :=
  match d with
  | [] => none
  | (k', v) :: t => if k' == k then some v else dget? t k

/-- Python `k in d`. -/
def dmem (d : PDict) (k : Str) : Bool := (dget? d k).isSome

/-- Python `d[k] = v`: update in place if present, else append. -/
def dset (d : PDict) (k v : Str) : PDict :=
  match d with
  | [] => [(k, v)]
  | (k', v') :: t => if k' == k then (k, v) :: t else (k', v') :: dset t k v

/-- Python `del d[k]` (for the unique-keys dictionaries this code builds). -/
def derase (d : PDict) (k : Str) : PDict :=
  match d with
  | [] => []
  | (k', v') :: t => if k' == k then t else (k', v') :: derase t k

/-- The keys of a dictionary, in insertion order. -/
def dkeys (d : PDict) : List Str := d.map Prod.fst

/-- The first-match loop shared by `extract_block` / `replace_block` /
`update_properties_block_preserve_format`: the index (counted from `i`) of
the first line satisfying `p`. -/
def findFrom (p : Line → Bool) (lines : List Line) (i : Nat) : Option Nat :=
  match lines with
  | [] => none
  | l :: rest => if p l then some i else findFrom p rest (i + 1)

/-- `for idx, line in enumerate(lines): if line.strip() == start_header: ...`. -/
def findHeader (lines : List Line) (start_header : Str) : Option Nat :=
  findFrom (fun l => strip l == start_header) lines 0

/-- `for idx in range(start + 1, len(lines)): if lines[idx].strip() in
next_header_list: ...`, with the `end = len(lines)` fallback. -/
def findTerm (lines : List Line) (s : Nat) (next_header_list : List Str) : Nat :=
  match findFrom (fun l => next_header_list.contains (strip l)) (lines.drop (s + 1)) (s + 1) with
  | some e => e
  | none => lines.length

/-- `file_operations.extract_block` (identical copy in `tuning_process.py`). -/
def extract_block (lines : List Line) (start_header : Str)
    (next_header_list : List Str) : List Line :=
  match findHeader lines start_header with
  | none => []
  | some s =>
    let e := findTerm lines s next_header_list
    (lines.drop s).take (e - s)

/-- `file_operations.replace_block`. -/
def replace_block (target_lines block_lines : List Line) (start_header : Str)
    (next_header_list : List Str) : List Line :=
  match findHeader target_lines start_header with
  | none => target_lines
  | some s =>
    let e := findTerm target_lines s next_header_list
    target_lines.take s ++ block_lines ++ target_lines.drop e

/-- The loop body of `parse_properties_block`: skip blank/comment lines,
split an `=`-containing line once on `=`, trim both sides, and drop any
`# ...` tail of the value. -/
def parseStep (properties : PDict) (rawLine : Line) : PDict :=
  let line := strip rawLine
  if line.isEmpty || startsWith (str "#") line then properties
  else if line.contains '=' then
    let kv := splitOnce '=' line
    let key := strip kv.1
    let value := strip kv.2
    let value := if value.contains '#' then strip (splitOnce '#' value).1 else value
    dset properties key value
  else properties

/-- `file_operations.parse_properties_block` (identical copy in
`tuning_process.py`). -/
def parse_properties_block (block_lines : List Line) : PDict :=
  block_lines.foldl parseStep []

/-- The blank-or-comment test applied to each line by the parser and the
rewrite loops. -/
def isCB (l : Line) : Bool := (strip l).isEmpty || startsWith (str "#") (strip l)

/-- `file_operations.validate_properties_exist`: the file content is `none`
when reading raised (the bare `except` branch). -/
def validate_properties_exist (content : Option Str) : Bool × Bool :=
  match content with
  | none => (false, false)
  | some c =>
    (containsSub (str "# LMKD property") c || containsSub (str "# DHA property") c,
     containsSub (str "# Chimera property") c)

/-- The `f"{indent}{key}={value}"` loop shared by both rewrite variants:
every rendered line ends with `" \\\n"` except the last, which ends with
`"\n"`. -/
def renderOverrideItems (indent : Str) (items : PDict) : List Line :=
  match items with
  | [] => []
  | [(k, v)] => [indent ++ k ++ [ '=' ] ++ v ++ str "\n"]
  | (k, v) :: rest => (indent ++ k ++ [ '=' ] ++ v ++ str " \\\n") :: renderOverrideItems indent rest

/-- The `PRODUCT_PROPERTY_OVERRIDES` marker. -/
def ovs : Str := str "PRODUCT_PROPERTY_OVERRIDES"

/-- The fallback-indentation scan shared by both rewrite variants: leading
whitespace of the first non-comment, non-override `=`-line, else 4 spaces. -/
def firstPropIndent (original_lines : List Line) : Str :=
  match original_lines.find? (fun line =>
      line.contains '=' && !startsWith (str "#") (strip line) &&
      !containsSub ovs line) with
  | some line => leadingWS line
  | none => str "    "

namespace FileOps

/-- Control state of the rewrite loop of
`file_operations.update_properties_block_preserve_format`: either in the
outer `while` (regular lines) or in the inner `while` over the members of a
`PRODUCT_PROPERTY_OVERRIDES` block, carrying `current_override_properties`. -/
inductive Mode
  | regular
  | inOverride (cur : List Str)

/-- The body of `file_operations.update_properties_block_preserve_format`
(lines 298–453): processes the lines after the header, returning the
emitted lines, the final `remaining_properties`, and the final
`last_regular_property_line_idx`.  `curLen` is `len(new_block)` (the header
counts as one line). -/
def processLoop : List Line → Mode → PDict → Nat → Nat → List Line × PDict × Nat
  | [], _, remaining, lastIdx, _ => ([], remaining, lastIdx)
  | line :: rest, mode, remaining, lastIdx, curLen =>
    let stripped := strip line
    if stripped.isEmpty || startsWith (str "#") stripped then
      -- comments and empty lines are kept as-is (both loops)
      let r := processLoop rest mode remaining lastIdx (curLen + 1)
      (line :: r.1, r.2)
    else
      match mode with
      | .regular =>
        if containsSub ovs stripped && containsSub (str "+=") stripped then
          -- start of an override block: keep the introducer line exactly
          let r := processLoop rest (.inOverride []) remaining lastIdx (curLen + 1)
          (line :: r.1, r.2)
        else if stripped.contains '=' && !containsSub ovs stripped then
          -- regular property line
          let kv := splitOnce '=' stripped
          let key := strip kv.1
          let old_value := kv.2
          let indent_str := leadingWS line
          let trailing_comment :=
            if old_value.contains '#' then str " #" ++ rstrip (splitOnce '#' old_value).2
            else []
          match dget? remaining key with
          | some new_value =>
            let new_line := indent_str ++ key ++ [ '=' ] ++ new_value ++ trailing_comment ++ str "\n"
            let r := processLoop rest .regular (derase remaining key) (curLen + 1) (curLen + 1)
            (new_line :: r.1, r.2)
          | none =>
            let r := processLoop rest .regular remaining (curLen + 1) (curLen + 1)
            (line :: r.1, r.2)
        else
          -- keep other lines unchanged
          let r := processLoop rest .regular remaining lastIdx (curLen + 1)
          (line :: r.1, r.2)
      | .inOverride cur =>
        if stripped.contains '=' && endsWith (str "\\") stripped then
          -- member line ending with the continuation backslash
          let prop_content := strip stripped.dropLast
          if prop_content.contains '=' then
            let key := strip (splitOnce '=' prop_content).1
            let indent_str := leadingWS line
            match dget? remaining key with
            | some new_value =>
              let new_line := indent_str ++ key ++ [ '=' ] ++ new_value ++ str " \\\n"
              let r := processLoop rest (.inOverride (cur ++ [key]))
                  (derase remaining key) lastIdx (curLen + 1)
              (new_line :: r.1, r.2)
            | none =>
              let r := processLoop rest (.inOverride (cur ++ [key])) remaining lastIdx (curLen + 1)
              (line :: r.1, r.2)
          else
            let r := processLoop rest (.inOverride cur) remaining lastIdx (curLen + 1)
            (line :: r.1, r.2)
        else if stripped.contains '=' then
          -- member line without a trailing backslash: last property in block
          let kv := splitOnce '=' stripped
          let key := strip kv.1
          let old_value := kv.2
          let indent_str := leadingWS line
          let step : List Line × PDict × List Str :=
            match dget? remaining key with
            | some new_value =>
              let new_line :=
                if remaining.any (fun p => !cur.contains p.1) then
                  indent_str ++ key ++ [ '=' ] ++ new_value ++ str " \\\n"
                else
                  indent_str ++ key ++ [ '=' ] ++ new_value ++ str "\n"
              ([new_line], derase remaining key, cur ++ [key])
            | none =>
              let rem_for_block := remaining.filter (fun p => !cur.contains p.1)
              if !rem_for_block.isEmpty then
                ([indent_str ++ key ++ [ '=' ] ++ strip old_value ++ str " \\\n"],
                  remaining, cur ++ [key])
              else
                ([line], remaining, cur ++ [key])
          let remaining1 := step.2.1
          let cur1 := step.2.2
          let rem2 := remaining1.filter (fun p => !cur1.contains p.1)
          let appended := renderOverrideItems indent_str rem2
          let remaining2 := remaining1.filter (fun p => cur1.contains p.1)
          let r := processLoop rest .regular remaining2 lastIdx
              (curLen + step.1.length + appended.length)
          (step.1 ++ appended ++ r.1, r.2)
        else
          -- not a property line: end of override block
          let r := processLoop rest .regular remaining lastIdx (curLen + 1)
          (line :: r.1, r.2)

/-- `file_operations.update_properties_block_preserve_format` (the active,
uncommented definition at lines 267–473). -/
def update_properties_block_preserve_format (lines : List Line) (new_properties : PDict)
    (start_header : Str) (next_header_list : List Str) : List Line :=
  match findHeader lines start_header with
  | none => lines
  | some s =>
    let e := findTerm lines s next_header_list
    let original_lines := (lines.drop s).take (e - s)
    let headerLine := original_lines.headI
    let r := processLoop original_lines.tail .regular new_properties 1 1
    let new_block := headerLine :: r.1
    let new_block :=
      if r.2.1.isEmpty then new_block
      else
        new_block.take r.2.2 ++
          r.2.1.map (fun kv => firstPropIndent original_lines ++ kv.1 ++ [ '=' ] ++ kv.2 ++ str "\n") ++
          new_block.drop r.2.2
    lines.take s ++ new_block ++ lines.drop e

end FileOps

namespace TuningProc

/-- One entry of `override_blocks` in
`tuning_process.update_properties_block_preserve_format`: the index of the
introducer line, the member keys, and the indices of all block lines. -/
structure OvBlock where
  start : Nat
  props : List Str
  lineIdxs : List Nat

/-- The inner collection `while` of the first pass (lines 361–390): walks
the member lines after an introducer, recording keys and line indices.
Returns the keys, the recorded indices, and the number of lines consumed. -/
def collectInner : List Line → Nat → List Str → List Nat → List Str × List Nat × Nat
  | [], _, props, idxs => (props, idxs, 0)
  | line :: tail, i, props, idxs =>
    let stripped := strip line
    if stripped.isEmpty || startsWith (str "#") stripped then
      let r := collectInner tail (i + 1) props (idxs ++ [i])
      (r.1, r.2.1, r.2.2 + 1)
    else if stripped.contains '=' then
      let prop_content :=
        if endsWith (str "\\") stripped then strip stripped.dropLast else stripped
      let props' :=
        if prop_content.contains '=' then props ++ [strip (splitOnce '=' prop_content).1]
        else props
      let idxs' := idxs ++ [i]
      if !endsWith (str "\\") stripped then
        -- no trailing backslash: consume this line, then end of block
        (props', idxs', 1)
      else
        let r := collectInner tail (i + 1) props' idxs'
        (r.1, r.2.1, r.2.2 + 1)
    else
      -- non-property line: end of block, line not consumed
      (props, idxs, 0)

/-- The first pass (lines 346–398): identify every
`PRODUCT_PROPERTY_OVERRIDES` block.  The fuel argument only bounds the
number of iterations; it is called with the line count, and every
iteration consumes at least one line, so the bound is never hit. -/
def collectBlocks : Nat → List Line → Nat → List OvBlock
  | 0, _, _ => []
  | _ + 1, [], _ => []
  | fuel + 1, line :: tail, i =>
    let stripped := strip line
    if containsSub ovs stripped && containsSub (str "+=") stripped then
      let r := collectInner tail (i + 1) [] [i]
      ⟨i, r.1, r.2.1⟩ :: collectBlocks fuel (tail.drop r.2.2) (i + 1 + r.2.2)
    else
      collectBlocks fuel tail (i + 1)

/-- The `default_indent` scan over a block's member lines (lines 428–434). -/
def blockIndent (orig : List Line) (idxs : List Nat) : Str :=
  match idxs.find? (fun idx =>
      decide (idx < orig.length) &&
      (strip (orig.getD idx [])).contains '=' &&
      !startsWith (str "#") (strip (orig.getD idx []))) with
  | some idx => leadingWS (orig.getD idx [])
  | none => str "    "

/-- The `block_props` collection loop (lines 437–459): existing member keys
get the new value when present in `remaining` (which loses them), else
their original value. -/
def collectBlockProps (orig : List Line) : List Nat → PDict → PDict → PDict × PDict
  | [], bp, remaining => (bp, remaining)
  | idx :: t, bp, remaining =>
    if idx < orig.length then
      let ps := strip (orig.getD idx [])
      if ps.isEmpty || startsWith (str "#") ps then collectBlockProps orig t bp remaining
      else if ps.contains '=' then
        let prop_content := if endsWith (str "\\") ps then strip ps.dropLast else ps
        if prop_content.contains '=' then
          let kv := splitOnce '=' prop_content
          let key := strip kv.1
          match dget? remaining key with
          | some v => collectBlockProps orig t (dset bp key v) (derase remaining key)
          | none => collectBlockProps orig t (dset bp key (strip kv.2)) remaining
        else collectBlockProps orig t bp remaining
      else collectBlockProps orig t bp remaining
    else collectBlockProps orig t bp remaining

/-- State of the second pass: emitted lines (after the header), the
`remaining_properties`, the `processed_lines` set, and
`last_property_line_idx`. -/
structure PassState where
  em : List Line
  remaining : PDict
  processed : List Nat
  lastIdx : Nat

/-- One step of the second pass (lines 403–510), for line index `idx`. -/
def secondPassStep (orig : List Line) (blocks : List OvBlock) (st : PassState)
    (idx : Nat) : PassState :=
  if st.processed.contains idx then st
  else
    let line := orig.getD idx []
    let stripped := strip line
    if stripped.isEmpty || startsWith (str "#") stripped then
      { st with em := st.em ++ [line] }
    else
      match blocks.find? (fun b => b.start == idx) with
      | some blk =>
        let default_indent := blockIndent orig blk.lineIdxs.tail
        let r := collectBlockProps orig blk.lineIdxs.tail [] st.remaining
        let block_props := r.2.foldl (fun bp kv => dset bp kv.1 kv.2) r.1
        let em' := st.em ++ [orig.getD blk.start []] ++ renderOverrideItems default_indent block_props
        { em := em'
          remaining := []
          processed := st.processed ++ [blk.start] ++ blk.lineIdxs
          lastIdx := 1 + em'.length }
      | none =>
        if stripped.contains '=' && !containsSub ovs stripped then
          let kv := splitOnce '=' stripped
          let key := strip kv.1
          let old_value := kv.2
          let indent_str := leadingWS line
          let trailing_comment :=
            if old_value.contains '#' then str " #" ++ rstrip (splitOnce '#' old_value).2
            else []
          match dget? st.remaining key with
          | some new_value =>
            let em' := st.em ++ [indent_str ++ key ++ [ '=' ] ++ new_value ++ trailing_comment ++ str "\n"]
            { em := em', remaining := derase st.remaining key, processed := st.processed
              lastIdx := 1 + em'.length }
          | none =>
            let em' := st.em ++ [line]
            { st with em := em', lastIdx := 1 + em'.length }
        else
          { st with em := st.em ++ [line] }

/-- `tuning_process.update_properties_block_preserve_format` (lines 315–530,
the "FIXED VERSION"). -/
def update_properties_block_preserve_format (lines : List Line) (new_properties : PDict)
    (start_header : Str) (next_header_list : List Str) : List Line :=
  match findHeader lines start_header with
  | none => lines
  | some s =>
    let e := findTerm lines s next_header_list
    let original_lines := (lines.drop s).take (e - s)
    let headerLine := original_lines.headI
    let blocks := collectBlocks original_lines.length original_lines.tail 1
    let st := (List.range' 1 (original_lines.length - 1)).foldl
        (secondPassStep original_lines blocks)
        { em := [], remaining := new_properties, processed := [], lastIdx := 1 }
    let new_block := headerLine :: st.em
    let new_block :=
      if st.remaining.isEmpty then new_block
      else
        new_block.take st.lastIdx ++
          st.remaining.map (fun kv =>
            firstPropIndent original_lines ++ kv.1 ++ [ '=' ] ++ kv.2 ++ str "\n") ++
          new_block.drop st.lastIdx
    lines.take s ++ new_block ++ lines.drop e

end TuningProc

/-- `file_operations.extract_properties_from_file` (identical copy in
`tuning_process.py`): `content = none` models the `except` branch (the read
raised); the result is the `(LMKD, Chimera)` pair of parsed mappings, or
`none` when both are empty. -/
def extract_properties_from_file (content : Option (List Line)) :
    Option (PDict × PDict) :=
  match content with
  | none => none
  | some lines =>
    let lmkd_block := extract_block lines (str "# LMKD property")
        [str "# Chimera property", str "# DHA property"]
    let lmkd_block :=
      if lmkd_block.isEmpty then
        extract_block lines (str "# DHA property") [str "# Chimera property"]
      else lmkd_block
    let lmkd := if lmkd_block.isEmpty then [] else parse_properties_block lmkd_block
    let chimera_block := extract_block lines (str "# Chimera property")
        [str "# Nandswap", str "#", str ""]
    let chimera := if chimera_block.isEmpty then [] else parse_properties_block chimera_block
    if lmkd.isEmpty && chimera.isEmpty then none
    else some (lmkd, chimera)

/-! ### Workflow drivers: events, oracle, and the embedded processes -/

/-- Observable effects of the workflow drivers: invocations of the
callbacks (`log_callback`, `error_callback`, `info_callback`,
`progress_callback` — modeled as provided, since the GUI supplies them) and
the external side effects that mutate target files or Perforce state
(`p4 edit`, the `.bak_` copy, the final write). -/
inductive Event
  | log (msg : Str)
  | error (title msg : Str)
  | info (title msg : Str)
  | progress (n : Nat)
  | checkout (depot : Str)
  | backup (path : Str)
  | write (path : Str)
  deriving DecidableEq

/-- Results of the external collaborators (Perforce commands, the
filesystem, the path configuration).  Each fallible call yields
`Except Str α`, the error carrying the exception text `str(e)`;
`validate_depot_path` is total because it catches internally and returns
`False`.  `client_name`/`now` stand for `get_client_name()` and
`datetime.now().strftime(...)`.  `map_depots` is the outcome of the
`p4 client -o` / `p4 client -i` pair shared by all the mapping helpers. -/
structure POracle where
  validate_depot_path : Str → Bool
  client_name : Option Str
  depot_to_local : Str → Except Str Str
  create_changelist : Except Str Str
  map_depots : Except Str Unit
  sync_file : Str → Except Str Unit
  checkout_file : Str → Str → Except Str Unit
  read_content : Str → Except Str Str
  read_lines : Str → Except Str (List Line)
  copy_file : Str → Except Str Unit
  write_file : Str → List Line → Except Str Unit
  now : Str

/-- A workflow computation: the events emitted so far together with the
result, `Except.error e` standing for an uncaught Python exception. -/
def ERes (α : Type) : Type := List Event × Except Str α

def epure {α : Type} (x : α) : ERes α := ([], Except.ok x)

def emit (e : Event) : ERes Unit := ([e], Except.ok ())

def emits (es : List Event) : ERes Unit := (es, Except.ok ())

def ecall {α : Type} (r : Except Str α) : ERes α := ([], r)

/-- Sequencing: events accumulate; an exception short-circuits. -/
def ebind {α β : Type} (a : ERes α) (f : α → ERes β) : ERes β :=
  match a with
  | (evs, Except.ok x) =>
    let r := f x
    (evs ++ r.1, r.2)
  | (evs, Except.error e) => (evs, Except.error e)

/-- Lifts a computation that catches all its exceptions internally. -/
def etotal {α : Type} (a : List Event × α) : ERes α := (a.1, Except.ok a.2)

def isErr : Event → Bool
  | Event.error _ _ => true
  | _ => false

/-- The events that check out, back up, or modify a target file. -/
def isMut : Event → Bool
  | Event.checkout _ => true
  | Event.backup _ => true
  | Event.write _ => true
  | _ => false

/-- How many times the error callback fired in a trace. -/
def errCount (t : List Event) : Nat := (t.filter isErr).length

def lowerChar (c : Char) : Char :=
  if 'A' ≤ c && c ≤ 'Z' then Char.ofNat (c.toNat + 32) else c

/-- Python `str.lower()` on the ASCII depot paths. -/
def lower (s : Str) : Str := s.map lowerChar

/-- `"BENI" if "beni" in path.lower() else "FLUMEN" if "flumen" in
path.lower() else "TARGET"`. -/
def targetName (path : Str) : Str :=
  if containsSub (str "beni") (lower path) then str "BENI"
  else if containsSub (str "flumen") (lower path) then str "FLUMEN"
  else str "TARGET"

def clientErrMsg : Str := str "Client name not initialized. Please check P4 configuration."

/-- `p4_operations.create_changelist` (logging variant). -/
def create_changelist (o : POracle) : ERes Str :=
  ebind (emit (Event.log (str "[STEP 1] Creating pending changelist...")))
    (fun _ => match o.create_changelist with
      | Except.ok cid =>
        ([Event.log (str "[OK] Created changelist " ++ cid)], Except.ok cid)
      | Except.error e => ([], Except.error e))

/-- `p4_operations.map_client` (three depots, logging). -/
def map_client (o : POracle) : ERes Unit :=
  match o.client_name with
  | none => ([], Except.error clientErrMsg)
  | some _ =>
    ebind (emit (Event.log (str "[STEP 2] Mapping BENI, VINCE and FLUMEN to client spec...")))
      (fun _ => match o.map_depots with
        | Except.ok _ => ([Event.log (str "[OK] Mapping completed.")], Except.ok ())
        | Except.error e => ([], Except.error e))

/-- `p4_operations.map_client_two_paths` (target + VINCE, logging). -/
def map_client_two_paths (o : POracle) (target : Str) : ERes Unit :=
  match o.client_name with
  | none => ([], Except.error clientErrMsg)
  | some _ =>
    ebind (emit (Event.log (str "[STEP 2] Mapping " ++ targetName target ++
        str " and VINCE to client spec...")))
      (fun _ => match o.map_depots with
        | Except.ok _ => ([Event.log (str "[OK] Mapping completed.")], Except.ok ())
        | Except.error e => ([], Except.error e))

/-- `map_single_depot` (with `log_callback=None`) and
`map_two_depots_silent`: the client-name guard, then the mapping, no
logging. -/
def map_depots_silent (o : POracle) : ERes Unit :=
  match o.client_name with
  | none => ([], Except.error clientErrMsg)
  | some _ => ecall o.map_depots

/-- `p4_operations.sync_file` (logging variant). -/
def sync_file (o : POracle) (depot : Str) : ERes Unit :=
  ebind (emit (Event.log (str "[SYNC] Syncing " ++ depot ++ str "...")))
    (fun _ => match o.sync_file depot with
      | Except.ok _ => ([Event.log (str "[OK] Synced.")], Except.ok ())
      | Except.error e => ([], Except.error e))

/-- `p4_operations.checkout_file` (logging variant): on success the target
is checked out. -/
def checkout_file (o : POracle) (depot changelist_id : Str) : ERes Unit :=
  ebind (emit (Event.log (str "[CHECKOUT] Checking out " ++ depot ++ str "...")))
    (fun _ => ebind (ecall (o.checkout_file depot changelist_id))
      (fun _ => ebind (emit (Event.checkout depot))
        (fun _ => emit (Event.log (str "[OK] Checked out.")))))

/-- `file_operations.update_lmkd_chimera` (lines 59–81): reads both files,
extracts the LMKD (with DHA fallback) and Chimera blocks from VINCE,
splices them into the target with `replace_block`, backs the target up and
overwrites it.  Uncaught exceptions propagate. -/
def update_lmkd_chimera (o : POracle) (vince_path target_path : Str) : ERes Unit :=
  let tname := targetName target_path
  ebind (emit (Event.log (str "[STEP 3] Updating LMKD and Chimera properties in " ++
      tname ++ str "...")))
    (fun _ => ebind (ecall (o.read_lines vince_path)) (fun vince_lines =>
      ebind (ecall (o.read_lines target_path)) (fun target_lines =>
        let lmkd_block := extract_block vince_lines (str "# LMKD property")
            [str "# Chimera property", str "# DHA property"]
        let lmkd_block := if lmkd_block.isEmpty then
            extract_block vince_lines (str "# DHA property") [str "# Chimera property"]
          else lmkd_block
        let chimera_block := extract_block vince_lines (str "# Chimera property")
            [str "# Nandswap", str "#", str ""]
        let updated_target := replace_block target_lines lmkd_block (str "# LMKD property")
            [str "# Chimera property", str "# DHA property"]
        let updated_target := replace_block updated_target chimera_block
            (str "# Chimera property") [str "# Nandswap", str "#", str ""]
        let backup_path := target_path ++ str ".bak_" ++ o.now
        ebind (ecall (o.copy_file target_path)) (fun _ =>
          ebind (emit (Event.backup backup_path)) (fun _ =>
            ebind (ecall (o.write_file target_path updated_target)) (fun _ =>
              ebind (emit (Event.write target_path)) (fun _ =>
                emit (Event.log (str "[OK] Updated " ++ tname ++
                  str " file. Backup saved at: " ++ backup_path)))))))))

/-- One optional-target check of `run_bringup_process` (lines 32–50):
the emitted log line and the resulting `process_*` flag. -/
def targetCheck1 (o : POracle) (name path : Str) : List Event × Bool :=
  if !path.isEmpty && startsWith (str "//") path then
    if o.validate_depot_path path then
      ([Event.log (str "[OK] " ++ name ++ str " depot path validated successfully.")], true)
    else
      ([Event.log (str "[WARNING] " ++ name ++ str " depot path does not exist: " ++ path ++
          str ". Skipping " ++ name ++ str " processing.")], false)
  else
    ([Event.log (str "[INFO] " ++ name ++ str " depot path not provided. Skipping " ++ name ++
        str " processing.")], false)

/-- Lines 27–50 of `run_bringup_process`: the per-target logs and the
`(process_beni, process_flumen)` flags. -/
def targetChecks (o : POracle) (beni flumen : Str) : List Event × Bool × Bool :=
  let b := targetCheck1 o (str "BENI") beni
  let f := targetCheck1 o (str "FLUMEN") flumen
  (b.1 ++ f.1, b.2, f.2)

/-- The `try` body of `bringup_process.run_bringup_process` (lines 15–134);
`return` terminates the body with `Except.ok`. -/
def bringupBody (o : POracle) (beni vince flumen : Str) : ERes Unit :=
  ebind (emit (Event.log (str "[VALIDATION] Checking if VINCE depot path exists...")))
    (fun _ =>
  if !o.validate_depot_path vince then
    let errm := str "VINCE depot path does not exist: " ++ vince ++
      str "\nVINCE path is mandatory for the operation."
    emits [Event.log (str "[ERROR] " ++ errm), Event.error (str "Path Not Found") errm]
  else
  ebind (emit (Event.log (str "[OK] VINCE depot path validated successfully.")))
    (fun _ =>
  let tc := targetChecks o beni flumen
  ebind (emits tc.1) (fun _ =>
  if !tc.2.1 && !tc.2.2 then
    let errm := str "Neither BENI nor FLUMEN paths are valid. At least one target path is required."
    emits [Event.log (str "[ERROR] " ++ errm), Event.error (str "No Valid Targets") errm]
  else
  ebind (ecall (o.depot_to_local vince)) (fun vince_local =>
  ebind (if tc.2.1 then ebind (ecall (o.depot_to_local beni)) (fun s => epure (some s))
         else epure none) (fun beni_local =>
  ebind (if tc.2.2 then ebind (ecall (o.depot_to_local flumen)) (fun s => epure (some s))
         else epure none) (fun flumen_local =>
  ebind (emit (Event.progress 10)) (fun _ =>
  ebind (create_changelist o) (fun changelist_id =>
  ebind (emit (Event.progress 20)) (fun _ =>
  ebind (if tc.2.1 && tc.2.2 then map_client o
         else if tc.2.1 then map_client_two_paths o beni
         else map_client_two_paths o flumen) (fun _ =>
  ebind (emit (Event.progress 35)) (fun _ =>
  ebind (sync_file o vince) (fun _ =>
  ebind (if tc.2.1 then sync_file o beni else epure ()) (fun _ =>
  ebind (if tc.2.2 then sync_file o flumen else epure ()) (fun _ =>
  ebind (emit (Event.log
      (str "[VALIDATION] Checking if LMKD and Chimera properties exist in VINCE...")))
    (fun _ =>
  let hc := validate_properties_exist (Except.toOption (o.read_content vince_local))
  if !hc.1 && !hc.2 then
    let errm := str "VINCE file does not contain LMKD or Chimera properties"
    emits [Event.log (str "[ERROR] " ++ errm), Event.error (str "Properties Not Found") errm]
  else
  ebind (if !hc.1 then
           emit (Event.log (str "[WARNING] VINCE file does not contain LMKD property"))
         else if !hc.2 then
           emit (Event.log (str "[WARNING] VINCE file does not contain Chimera property"))
         else
           emit (Event.log (str "[OK] LMKD and Chimera properties found in VINCE file.")))
    (fun _ =>
  ebind (emit (Event.progress 60)) (fun _ =>
  ebind (if tc.2.1 then checkout_file o beni changelist_id else epure ()) (fun _ =>
  ebind (if tc.2.2 then checkout_file o flumen changelist_id else epure ()) (fun _ =>
  ebind (emit (Event.progress 80)) (fun _ =>
  ebind (if tc.2.1 then update_lmkd_chimera o vince_local (beni_local.getD []) else epure ())
    (fun _ =>
  ebind (if tc.2.2 then update_lmkd_chimera o vince_local (flumen_local.getD []) else epure ())
    (fun _ =>
  ebind (emit (Event.progress 100)) (fun _ =>
    let processed := (if tc.2.1 then [str "BENI"] else []) ++
      (if tc.2.2 then [str "FLUMEN"] else [])
    emit (Event.log (str "[INFO] All steps completed successfully. Processed targets: " ++
      List.intercalate (str ", ") processed)))))))))))))))))))))))))

/-- `bringup_process.run_bringup_process`: the body wrapped in the
top-level catch (lines 136–141), which logs, fires the error callback once
with `("Process Error", str(e))` and resets the progress to 0. -/
def run_bringup_process (o : POracle) (beni vince flumen : Str) : List Event :=
  match bringupBody o beni vince flumen with
  | (evs, Except.ok _) => evs
  | (evs, Except.error e) =>
    evs ++ [Event.log (str "[ERROR] " ++ e), Event.error (str "Process Error") e,
      Event.progress 0]

/-- `tuning_process.compare_property_dict`.  Python iterates an unordered
key `set`; the embedding fixes the order as the keys of `dict1` followed by
the keys only in `dict2` (the order only affects the comparison message,
which no claim constrains). -/
def compare_property_dict (dict1 dict2 : PDict) (category : Str) : List Str :=
  let all_keys := dkeys dict1 ++ (dkeys dict2).filter (fun k => !(dkeys dict1).contains k)
  all_keys.foldr (fun key acc =>
    let val1 := (dget? dict1 key).getD (str "<missing>")
    let val2 := (dget? dict2 key).getD (str "<missing>")
    if val1 ≠ val2 then
      (category ++ [ '.' ] ++ key ++ str ": BENI='" ++ val1 ++ str "' vs FLUMEN='" ++
        val2 ++ str "'") :: acc
    else acc) []

/-- `tuning_process.compare_properties`: a property dictionary is modeled
as the pair (LMKD mapping, Chimera mapping). -/
def compare_properties (beni_props flumen_props : PDict × PDict) : List Str :=
  compare_property_dict beni_props.1 flumen_props.1 (str "LMKD") ++
    compare_property_dict beni_props.2 flumen_props.2 (str "Chimera")

/-- The `try` body of `tuning_process.load_properties_for_tuning`
(lines 16–98): early returns yield `Except.ok none`. -/
def loadBody (o : POracle) (beni flumen : Str) : ERes (Option (PDict × PDict)) :=
  let bprov := !beni.isEmpty && startsWith (str "//") beni
  let fprov := !flumen.isEmpty && startsWith (str "//") flumen
  if bprov && !o.validate_depot_path beni then
    ([Event.error (str "Path Not Found") (str "BENI depot path does not exist: " ++ beni)],
      Except.ok none)
  else if fprov && !o.validate_depot_path flumen then
    ([Event.error (str "Path Not Found") (str "FLUMEN depot path does not exist: " ++ flumen)],
      Except.ok none)
  else if !bprov && !fprov then
    ([Event.error (str "No Valid Paths") (str "At least one valid depot path is required.")],
      Except.ok none)
  else
  ebind (emit (Event.progress 20)) (fun _ =>
  ebind (if bprov && fprov then
           ebind (map_depots_silent o) (fun _ =>
           ebind (ecall (o.sync_file beni)) (fun _ => ecall (o.sync_file flumen)))
         else if bprov then
           ebind (map_depots_silent o) (fun _ => ecall (o.sync_file beni))
         else
           ebind (map_depots_silent o) (fun _ => ecall (o.sync_file flumen)))
    (fun _ =>
  ebind (emit (Event.progress 60)) (fun _ =>
  ebind (if bprov then
           ebind (ecall (o.depot_to_local beni)) (fun beni_local =>
             epure (extract_properties_from_file (Except.toOption (o.read_lines beni_local))))
         else epure none) (fun beniProps =>
  if bprov && beniProps.isNone then
    ([Event.error (str "Properties Not Found")
        (str "BENI file does not contain LMKD or Chimera properties")], Except.ok none)
  else
  ebind (if fprov then
           ebind (ecall (o.depot_to_local flumen)) (fun flumen_local =>
             epure (extract_properties_from_file (Except.toOption (o.read_lines flumen_local))))
         else epure none) (fun flumenProps =>
  if fprov && flumenProps.isNone then
    ([Event.error (str "Properties Not Found")
        (str "FLUMEN file does not contain LMKD or Chimera properties")], Except.ok none)
  else
  ebind (emit (Event.progress 80)) (fun _ =>
  ebind (if bprov && fprov then
           let differences := compare_properties (beniProps.getD ([], []))
             (flumenProps.getD ([], []))
           if !differences.isEmpty then
             emit (Event.info (str "Properties Comparison")
               (str "Properties differ between BENI and FLUMEN:\n\n" ++
                 List.intercalate (str "\n") differences))
           else epure ()
         else epure ()) (fun _ =>
  let result := match beniProps with
    | some p => p
    | none => flumenProps.getD ([], [])
  ebind (emit (Event.progress 100)) (fun _ => epure (some result)))))))))

/-- `tuning_process.load_properties_for_tuning`: the body wrapped in its
catch (lines 100–103), which fires the error callback once and returns
`None` — it does NOT touch the progress callback. -/
def load_properties_for_tuning (o : POracle) (beni flumen : Str) :
    List Event × Option (PDict × PDict) :=
  match loadBody o beni flumen with
  | (evs, Except.ok r) => (evs, r)
  | (evs, Except.error e) =>
    (evs ++ [Event.error (str "Load Properties Error") e], none)

/-- `tuning_process.apply_properties_to_file` (lines 282–313): backs the
file up, reads it, rewrites the LMKD (with DHA fallback) and Chimera
sections with the tuning variant of the rewrite, writes it back; it catches
everything internally and reports success as a `Bool`.  A property
dictionary always carries both the `"LMKD"` and `"Chimera"` keys, so the
Python `"LMKD" in properties and properties["LMKD"]` test is the
non-emptiness of the mapping. -/
def apply_properties_to_file (o : POracle) (path : Str) (properties : PDict × PDict) :
    List Event × Bool :=
  match o.copy_file path with
  | Except.error _ => ([], false)
  | Except.ok _ =>
    let backup_path := path ++ str ".bak_" ++ o.now
    match o.read_lines path with
    | Except.error _ => ([Event.backup backup_path], false)
    | Except.ok lines =>
      let lines := if !properties.1.isEmpty then
          let ls := TuningProc.update_properties_block_preserve_format lines properties.1
              (str "# LMKD property") [str "# Chimera property", str "# DHA property"]
          if !(ls.any (fun line => containsSub (str "# LMKD property") line)) then
            TuningProc.update_properties_block_preserve_format ls properties.1
              (str "# DHA property") [str "# Chimera property"]
          else ls
        else lines
      let lines := if !properties.2.isEmpty then
          TuningProc.update_properties_block_preserve_format lines properties.2
            (str "# Chimera property") [str "# Nandswap", str "#", str ""]
        else lines
      match o.write_file path lines with
      | Except.error _ => ([Event.backup backup_path], false)
      | Except.ok _ => ([Event.backup backup_path, Event.write path], true)

/-- The `try` body of `tuning_process.run_tuning_process` (lines 217–270). -/
def tuningBody (o : POracle) (beni vince flumen : Str) (properties : PDict × PDict) :
    ERes Unit :=
  let pb := !beni.isEmpty && startsWith (str "//") beni
  let pf := !flumen.isEmpty && startsWith (str "//") flumen
  if !pb && !pf then
    emits [Event.error (str "No Valid Paths") (str "At least one valid depot path is required.")]
  else
  ebind (emit (Event.progress 10)) (fun _ =>
  ebind (ecall o.create_changelist) (fun changelist_id =>
  ebind (emit (Event.progress 30)) (fun _ =>
  ebind (if pb then ebind (ecall (o.checkout_file beni changelist_id))
                      (fun _ => emit (Event.checkout beni))
         else epure ()) (fun _ =>
  ebind (if pf then ebind (ecall (o.checkout_file flumen changelist_id))
                      (fun _ => emit (Event.checkout flumen))
         else epure ()) (fun _ =>
  ebind (emit (Event.progress 50)) (fun _ =>
  ebind (if pb then ebind (ecall (o.depot_to_local beni))
                      (fun beni_local => etotal (apply_properties_to_file o beni_local properties))
         else epure false) (fun beniUpd =>
  ebind (if pf then ebind (ecall (o.depot_to_local flumen))
                      (fun flumen_local => etotal (apply_properties_to_file o flumen_local properties))
         else epure false) (fun flumenUpd =>
  ebind (emit (Event.progress 80)) (fun _ =>
  ebind (if beniUpd || flumenUpd then
           let files_updated := (if beniUpd then [str "BENI"] else []) ++
             (if flumenUpd then [str "FLUMEN"] else [])
           emit (Event.info (str "Tuning Complete")
             (str "Properties successfully updated in: " ++
               List.intercalate (str ", ") files_updated ++
               str "\n\nChangelist " ++ changelist_id ++ str " is ready for submission."))
         else emit (Event.error (str "Update Failed") (str "No files were updated.")))
    (fun _ => emit (Event.progress 100)))))))))))

/-- `tuning_process.run_tuning_process`: the body wrapped in its catch
(lines 272–276), which fires the error callback once and resets the
progress to 0 (no log). -/
def run_tuning_process (o : POracle) (beni vince flumen : Str)
    (properties : PDict × PDict) : List Event :=
  match tuningBody o beni vince flumen properties with
  | (evs, Except.ok _) => evs
  | (evs, Except.error e) =>
    evs ++ [Event.error (str "Tuning Process Error") e, Event.progress 0]

/-- No event of the computation satisfies `p`. -/
def FreeOf (p : Event → Bool) {α : Type} (a : ERes α) : Prop := a.1.filter p = []

/-- The error callback fires at most once, and not at all on the exception
path (so the top-level catch brings the total to exactly one). -/
def ErrLeOne {α : Type} (a : ERes α) : Prop :=
  errCount a.1 ≤ 1 ∧ ∀ e, a.2 = Except.error e → errCount a.1 = 0

/-- The computation checks out, backs up, and writes nothing, and ends
with exactly one error callback when it completes (zero when it raises). -/
def AbortsWithOneError {α : Type} (a : ERes α) : Prop :=
  a.1.filter isMut = [] ∧ (∀ x, a.2 = Except.ok x → errCount a.1 = 1) ∧
    (∀ e, a.2 = Except.error e → errCount a.1 = 0)

/-- An oracle on which every external call succeeds, the reference file
content is `"x"` (neither property header), and every read returns an
empty file. -/
def oracleAbs : POracle where
  validate_depot_path := fun _ => true
  client_name := some (str "u")
  depot_to_local := fun p => Except.ok p
  create_changelist := Except.ok (str "100")
  map_depots := Except.ok ()
  sync_file := fun _ => Except.ok ()
  checkout_file := fun _ _ => Except.ok ()
  read_content := fun _ => Except.ok (str "x")
  read_lines := fun _ => Except.ok []
  copy_file := fun _ => Except.ok ()
  write_file := fun _ _ => Except.ok ()
  now := str "t"

/-- Like `oracleAbs`, but the backup copy fails, so
`apply_properties_to_file` returns `False`. -/
def oracleApplyFail : POracle where
  validate_depot_path := fun _ => true
  client_name := some (str "u")
  depot_to_local := fun p => Except.ok p
  create_changelist := Except.ok (str "100")
  map_depots := Except.ok ()
  sync_file := fun _ => Except.ok ()
  checkout_file := fun _ _ => Except.ok ()
  read_content := fun _ => Except.ok (str "x")
  read_lines := fun _ => Except.ok []
  copy_file := fun _ => Except.error (str "disk full")
  write_file := fun _ _ => Except.ok ()
  now := str "t"

/-- Like `oracleAbs`, but the reference file contains the LMKD header and
not the Chimera header (exactly one property category present). -/
def oraclePartial : POracle where
  validate_depot_path := fun _ => true
  client_name := some (str "u")
  depot_to_local := fun p => Except.ok p
  create_changelist := Except.ok (str "100")
  map_depots := Except.ok ()
  sync_file := fun _ => Except.ok ()
  checkout_file := fun _ _ => Except.ok ()
  read_content := fun _ => Except.ok (str "# LMKD property")
  read_lines := fun _ => Except.ok []
  copy_file := fun _ => Except.ok ()
  write_file := fun _ _ => Except.ok ()
  now := str "t"

/-! ### Concrete scenario inputs -/

/-- Scenario A of the spec: an LMKD section with keys `a=1`, `b=2`. -/
def scenarioA : List Line :=
  [str "# LMKD property\n", str "a=1\n", str "b=2\n", str "# Chimera property\n", str "c=3\n"]

/-- Scenario C of the spec: an override group with members `p=1 \` and `q=2`. -/
def scenarioC : List Line :=
  [str "# LMKD property\n", str "PRODUCT_PROPERTY_OVERRIDES += \\\n",
   str "    p=1 \\\n", str "    q=2\n", str "# Chimera property\n"]

/-- An override group with a comment line between its members. -/
def scenarioD : List Line :=
  [str "# LMKD property\n", str "PRODUCT_PROPERTY_OVERRIDES += \\\n",
   str "    p=1 \\\n", str "    # note\n", str "    q=2\n", str "tail=9\n",
   str "# Chimera property\n"]

/-- The header/terminator arguments used for the LMKD section. -/
def lmkdHeader : Str := str "# LMKD property"

/-- The terminator list used for the LMKD section. -/
def lmkdTerms : List Str := [str "# Chimera property", str "# DHA property"]

/-! ### Structured regular property lines -/

/-- A regular property line `indent ++ key ++ "=" ++ value ++ "\n"` in
structured form. -/
structure SProp where
  ind : Str
  key : Str
  val : Str

/-- Render a structured property as a file line. -/
def mkPropLine (p : SProp) : Line := p.ind ++ p.key ++ '=' :: p.val ++ str "\n"

/-- Well-formedness of a structured property line: whitespace indentation, a
nonempty key free of whitespace/`=`/`#`, a value free of whitespace/`#`, and
no `PRODUCT_PROPERTY_OVERRIDES` marker in the line. -/
def SProp.ok (p : SProp) : Prop :=
  (∀ c ∈ p.ind, isWS c = true) ∧ p.key ≠ [] ∧
  (∀ c ∈ p.key, isWS c = false ∧ c ≠ '=' ∧ c ≠ '#') ∧
  (∀ c ∈ p.val, isWS c = false ∧ c ≠ '#') ∧
  containsSub ovs (p.key ++ '=' :: p.val) = false ∧
  containsSub ovs (mkPropLine p) = false

/-- Well-formedness of a `new_mapping` dictionary: unique keys, each key
nonempty and free of whitespace/`=`/`#`, each value free of whitespace/`#`. -/
def MClean (m : PDict) : Prop :=
  (m.map Prod.fst).Nodup ∧
  ∀ kv ∈ m, kv.1 ≠ [] ∧ (∀ c ∈ kv.1, isWS c = false ∧ c ≠ '=' ∧ c ≠ '#') ∧
    (∀ c ∈ kv.2, isWS c = false ∧ c ≠ '#')

/-- The rewrite of the body of a simple section: keys present in the mapping
are updated in place (indentation preserved), keys absent keep their
original line unchanged. -/
def updatedPropLines (props : List SProp) (m : PDict) : List Line :=
  props.map fun p =>
    match dget? m p.key with
    | some nv => p.ind ++ p.key ++ '=' :: nv ++ str "\n"
    | none => mkPropLine p

/-- The lines appended after the last property line for mapping keys that do
not occur in the section. -/
def appendedPropLines (headerLine : Line) (props : List SProp) (m : PDict) : List Line :=
  (m.filter fun kv => !((props.map SProp.key).contains kv.1)).map fun kv =>
    firstPropIndent (headerLine :: props.map mkPropLine) ++ kv.1 ++ '=' :: kv.2 ++ str "\n"

instance (p : SProp) : Decidable p.ok := by
  unfold SProp.ok
  infer_instance

instance (m : PDict) : Decidable (MClean m) := by
  unfold MClean
  infer_instance

/-- The key well-formedness carried through the loop for the
`remaining_properties` dictionary. -/
def MKeysOk (m : PDict) : Prop :=
  ∀ kv ∈ m, kv.1 = [] ∨ ∃ c t, kv.1 = c :: t ∧ isWS c = false ∧ c ≠ '#'

/-! ### String toolkit -/

theorem dropWhile_ws_append (a b : Str) (h : ∀ c ∈ a, isWS c = true) :
    (a ++ b).dropWhile isWS = b.dropWhile isWS := by
  induction a with
  | nil => rfl
  | cons c a' ih =>
    have hc : isWS c = true := h c (by simp)
    simp only [List.cons_append, List.dropWhile_cons, hc, if_true]
    exact ih fun x hx => h x (by simp [hx])

theorem lstrip_ws_append (a b : Str) (h : ∀ c ∈ a, isWS c = true) :
    lstrip (a ++ b) = lstrip b :=
  dropWhile_ws_append a b h

theorem lstrip_cons_not_ws (c : Char) (s : Str) (h : isWS c = false) :
    lstrip (c :: s) = c :: s := by
  simp only [lstrip, List.dropWhile_cons, h, Bool.false_eq_true, if_false]

theorem rstrip_append_ws (a b : Str) (h : ∀ c ∈ b, isWS c = true) :
    rstrip (a ++ b) = rstrip a := by
  simp only [rstrip, List.reverse_append]
  rw [dropWhile_ws_append _ _ fun c hc => h c (List.mem_reverse.mp hc)]

theorem rstrip_append_last (a : Str) (c : Char) (h : isWS c = false) :
    rstrip (a ++ [c]) = a ++ [c] := by
  have h1 : (a ++ [c]).reverse = c :: a.reverse := by simp
  simp only [rstrip, h1, List.dropWhile_cons, h, Bool.false_eq_true, if_false]
  simp

theorem rstrip_cons_head (c : Char) (t : Str) (h : isWS c = false) :
    ∃ t', rstrip (c :: t) = c :: t' := by
  have h1 : (c :: t).reverse = t.reverse ++ [c] := by simp
  simp only [rstrip, h1]
  rw [List.dropWhile_append]
  split
  · exact ⟨[], by simp [List.dropWhile_cons, h]⟩
  · exact ⟨(t.reverse.dropWhile isWS).reverse, by simp⟩

theorem dropWhile_head_false (p : Char → Bool) (l : List Char) :
    ∀ c t, l.dropWhile p = c :: t → p c = false := by
  induction l with
  | nil => intro c t h; exact absurd h (by simp)
  | cons x l' ih =>
    intro c t h
    rw [List.dropWhile_cons] at h
    split at h
    · exact ih c t h
    · rename_i hx
      cases h
      simpa using hx

theorem rstrip_eq_of_forall_not_ws (s : Str) (h : ∀ c ∈ s, isWS c = false) :
    rstrip s = s := by
  cases hr : s.reverse with
  | nil =>
    have hs : s = [] := by simpa using congrArg List.reverse hr
    simp [hs, rstrip]
  | cons c t =>
    have hc : isWS c = false := by
      refine h c ?_
      have : c ∈ s.reverse := by rw [hr]; simp
      simpa using this
    simp only [rstrip, hr, List.dropWhile_cons, hc, Bool.false_eq_true, if_false]
    rw [← hr, List.reverse_reverse]

theorem strip_eq_of_forall_not_ws (s : Str) (h : ∀ c ∈ s, isWS c = false) :
    strip s = s := by
  cases s with
  | nil => rfl
  | cons c t =>
    have hc : isWS c = false := h c (by simp)
    unfold strip
    rw [lstrip_cons_not_ws c t hc, rstrip_eq_of_forall_not_ws _ h]

theorem strip_head_non_ws (s : Str) :
    strip s = [] ∨ ∃ c t, strip s = c :: t ∧ isWS c = false := by
  unfold strip
  cases hl : lstrip s with
  | nil => left; rfl
  | cons c t =>
    have hc : isWS c = false := dropWhile_head_false isWS s c t hl
    obtain ⟨t', ht'⟩ := rstrip_cons_head c t hc
    exact Or.inr ⟨c, t', ht', hc⟩

theorem strip_sandwich (ind tail : Str) (c : Char) (t : Str)
    (hind : ∀ x ∈ ind, isWS x = true) (htail : ∀ x ∈ tail, isWS x = true)
    (hc : isWS c = false)
    (hlast : ∃ d t', c :: t = t' ++ [d] ∧ isWS d = false) :
    strip (ind ++ (c :: t) ++ tail) = c :: t := by
  unfold strip
  rw [List.append_assoc, lstrip_ws_append _ _ hind,
    show (c :: t) ++ tail = c :: (t ++ tail) from rfl,
    lstrip_cons_not_ws _ _ hc,
    show c :: (t ++ tail) = (c :: t) ++ tail from rfl,
    rstrip_append_ws _ _ htail]
  obtain ⟨d, t', het, hd⟩ := hlast
  rw [het, rstrip_append_last _ _ hd]

theorem exists_last_decomp (v : Str) (hv : ∀ c ∈ v, isWS c = false) (k : Str) :
    ∃ d t', k ++ '=' :: v = t' ++ [d] ∧ isWS d = false := by
  cases hr : v.reverse with
  | nil =>
    have hvnil : v = [] := by simpa using congrArg List.reverse hr
    subst hvnil
    exact ⟨'=', k, by simp, by decide⟩
  | cons d t =>
    have hv' : v = t.reverse ++ [d] := by
      have := congrArg List.reverse hr
      simpa using this
    refine ⟨d, k ++ '=' :: t.reverse, ?_, hv d (by rw [hv']; simp)⟩
    rw [hv']
    simp

theorem takeWhile_ws_append (a b : Str) (ha : ∀ c ∈ a, isWS c = true) :
    (a ++ b).takeWhile isWS = a ++ b.takeWhile isWS := by
  induction a with
  | nil => rfl
  | cons c a' ih =>
    have hc : isWS c = true := ha c (by simp)
    simp only [List.cons_append, List.takeWhile_cons, hc, if_true]
    rw [ih fun x hx => ha x (by simp [hx])]

theorem leadingWS_sandwich (ind : Str) (c : Char) (t : Str)
    (hind : ∀ x ∈ ind, isWS x = true) (hc : isWS c = false) :
    leadingWS (ind ++ c :: t) = ind := by
  unfold leadingWS
  rw [takeWhile_ws_append _ _ hind]
  simp [List.takeWhile_cons, hc]

theorem splitOnce_no_sep (c : Char) (k v : Str) (hk : ∀ x ∈ k, x ≠ c) :
    splitOnce c (k ++ c :: v) = (k, v) := by
  induction k with
  | nil => simp [splitOnce]
  | cons x k' ih =>
    have hx : (x == c) = false := beq_eq_false_iff_ne.mpr (hk x (by simp))
    simp only [List.cons_append, splitOnce, hx, Bool.false_eq_true, if_false]
    rw [show k'.append (c :: v) = k' ++ c :: v from rfl]
    rw [ih fun y hy => hk y (by simp [hy])]

theorem contains_of_mem {c : Char} {s : Str} (h : c ∈ s) : s.contains c = true :=
  List.elem_eq_true_of_mem h

theorem contains_eq_false_of_not_mem {c : Char} {s : Str} (h : c ∉ s) :
    s.contains c = false := by
  cases hcs : List.contains s c with
  | false => rfl
  | true => exact absurd (List.mem_of_elem_eq_true hcs) h

theorem startsWith_hash_cons (c : Char) (s : Str) (h : c ≠ '#') :
    startsWith (str "#") (c :: s) = false := by
  have hb : ('#' == c) = false := beq_eq_false_iff_ne.mpr (Ne.symm h)
  have hstr : str "#" = ['#'] := rfl
  simp [startsWith, hstr, List.isPrefixOf, hb]

/-! ### Dictionary toolkit -/

theorem dget?_derase_ne (d : PDict) (k k' : Str) (h : k ≠ k') :
    dget? (derase d k') k = dget? d k := by
  induction d with
  | nil => rfl
  | cons kv t ih =>
    obtain ⟨a, b⟩ := kv
    by_cases ha : (a == k') = true
    · have hak : a = k' := by simpa using ha
      subst hak
      have hk : (a == k) = false := beq_eq_false_iff_ne.mpr fun e => h e.symm
      simp only [derase, ha, if_true, dget?, hk, Bool.false_eq_true, if_false]
    · have ha' : (a == k') = false := by simpa using ha
      simp only [derase, ha', Bool.false_eq_true, if_false, dget?]
      by_cases hak : (a == k) = true
      · simp only [hak, if_true]
      · have hak' : (a == k) = false := by simpa using hak
        simp only [hak', Bool.false_eq_true, if_false, ih]

theorem dget?_eq_none_iff (d : PDict) (k : Str) :
    dget? d k = none ↔ ∀ kv ∈ d, kv.1 ≠ k := by
  induction d with
  | nil => simp [dget?]
  | cons kv t ih =>
    obtain ⟨a, b⟩ := kv
    by_cases ha : (a == k) = true
    · have hak : a = k := by simpa using ha
      subst hak
      simp [dget?, ha]
    · have ha' : (a == k) = false := by simpa using ha
      simp only [dget?, ha', Bool.false_eq_true, if_false, ih, List.mem_cons]
      constructor
      · rintro hall kv (rfl | hkv)
        · simpa using ha
        · exact hall kv hkv
      · intro hall kv hkv
        exact hall kv (Or.inr hkv)

theorem dget?_mem {m : PDict} {k v : Str} (h : dget? m k = some v) : (k, v) ∈ m := by
  induction m with
  | nil => exact absurd h (by simp [dget?])
  | cons kv t ih =>
    obtain ⟨a, b⟩ := kv
    by_cases ha : (a == k) = true
    · have hak : a = k := by simpa using ha
      subst hak
      simp only [dget?, ha, if_true, Option.some.injEq] at h
      subst h
      simp
    · have ha' : (a == k) = false := by simpa using ha
      simp only [dget?, ha', Bool.false_eq_true, if_false] at h
      exact List.mem_cons_of_mem _ (ih h)

theorem derase_sublist (d : PDict) (k : Str) : List.Sublist (derase d k) d := by
  induction d with
  | nil => simp [derase]
  | cons kv t ih =>
    simp only [derase]
    split
    · exact List.sublist_cons_self kv t
    · exact List.Sublist.cons₂ kv ih

theorem derase_eq_filter (d : PDict) (k : Str) (hnd : (d.map Prod.fst).Nodup) :
    derase d k = d.filter (fun kv => !(kv.1 == k)) := by
  induction d with
  | nil => rfl
  | cons kv t ih =>
    obtain ⟨a, b⟩ := kv
    simp only [List.map_cons, List.nodup_cons] at hnd
    obtain ⟨hna, hnd'⟩ := hnd
    by_cases ha : (a == k) = true
    · have hak : a = k := by simpa using ha
      simp only [derase, ha, if_true, List.filter_cons, Bool.not_true]
      rw [if_neg (by simp [ha])]
      symm
      apply List.filter_eq_self.mpr
      intro x hx
      have hxk : x.1 ≠ k := by
        intro he
        exact hna (by
          rw [← he] at hak
          exact hak ▸ List.mem_map_of_mem Prod.fst hx)
      simpa using hxk
    · have ha' : (a == k) = false := by simpa using ha
      simp only [derase, ha', Bool.false_eq_true, if_false, List.filter_cons]
      rw [if_pos (by simp [ha'])]
      rw [ih hnd']

theorem dset_append_of_not_mem (d : PDict) (k v : Str)
    (h : ∀ kv ∈ d, kv.1 ≠ k) : dset d k v = d ++ [(k, v)] := by
  induction d with
  | nil => rfl
  | cons kv t ih =>
    obtain ⟨a, b⟩ := kv
    have ha : (a == k) = false := beq_eq_false_iff_ne.mpr (h (a, b) (by simp))
    simp only [dset, ha, Bool.false_eq_true, if_false, List.cons_append]
    rw [ih fun kv hkv => h kv (by simp [hkv])]

/-! ### Properties of the first-match loops -/

theorem findFrom_shift (p : Line → Bool) (lines : List Line) (i : Nat) :
    findFrom p lines i = (findFrom p lines 0).map (· + i) := by
  induction lines generalizing i with
  | nil => rfl
  | cons l rest ih =>
    simp only [findFrom]
    by_cases hp : p l
    · simp [hp]
    · simp only [hp, if_false]
      rw [ih (i + 1), ih 1]
      cases findFrom p rest 0 with
      | none => rfl
      | some a =>
        show some (a + (i + 1)) = some (a + 1 + i)
        exact congrArg some (by omega)

theorem findFrom_none_iff (p : Line → Bool) (lines : List Line) (i : Nat) :
    findFrom p lines i = none ↔ ∀ l ∈ lines, p l = false := by
  induction lines generalizing i with
  | nil => simp [findFrom]
  | cons l rest ih =>
    simp only [findFrom, List.mem_cons]
    by_cases hp : p l = true
    · simp only [hp, if_true]
      constructor
      · intro h; exact absurd h (by simp)
      · intro h
        rw [h l (Or.inl rfl)] at hp
        exact absurd hp (by simp)
    · have hp' : p l = false := by simpa using hp
      simp only [hp', Bool.false_eq_true, if_false, ih (i + 1)]
      constructor
      · rintro h x (rfl | hx)
        · exact hp'
        · exact h x hx
      · intro h x hx
        exact h x (Or.inr hx)

theorem getD_drop' (lines : List Line) (n m : Nat) :
    (lines.drop n).getD m [] = lines.getD (n + m) [] := by
  induction lines generalizing n with
  | nil => simp
  | cons l rest ih =>
    cases n with
    | zero => simp
    | succ k =>
      simp only [List.drop_succ_cons]
      rw [ih k]
      simp [Nat.succ_add]

theorem findFrom_zero_some {p : Line → Bool} :
    ∀ {lines : List Line} {s : Nat}, findFrom p lines 0 = some s →
      s < lines.length ∧ p (lines.getD s []) = true ∧
        ∀ j, j < s → p (lines.getD j []) = false := by
  intro lines
  induction lines with
  | nil => intro s h; exact absurd h (by simp [findFrom])
  | cons l rest ih =>
    intro s h
    simp only [findFrom] at h
    by_cases hp : p l
    · rw [if_pos hp] at h
      obtain rfl : s = 0 := by simpa using h.symm
      exact ⟨by simp, by simpa using hp, by omega⟩
    · rw [if_neg hp] at h
      rw [findFrom_shift] at h
      match hb : findFrom p rest 0 with
      | none => rw [hb] at h; exact absurd h (by simp)
      | some s' =>
        rw [hb] at h
        obtain rfl : s = s' + 1 := by simpa using h.symm
        obtain ⟨h1, h2, h3⟩ := ih hb
        refine ⟨by simpa using h1, by simpa using h2, ?_⟩
        intro j hj
        cases j with
        | zero => simpa using hp
        | succ j' => simpa using h3 j' (by omega)

theorem findFrom_zero_eq_some {p : Line → Bool} :
    ∀ {lines : List Line} {s : Nat}, s < lines.length →
      p (lines.getD s []) = true → (∀ j, j < s → p (lines.getD j []) = false) →
      findFrom p lines 0 = some s := by
  intro lines
  induction lines with
  | nil => intro s h; simp at h
  | cons l rest ih =>
    intro s hs hp hmin
    cases s with
    | zero =>
      simp only [findFrom]
      rw [if_pos (by simpa using hp)]
    | succ s' =>
      have hl : p l = false := by simpa using hmin 0 (by omega)
      simp only [findFrom, hl, if_false]
      rw [findFrom_shift, ih (by simpa using hs) (by simpa using hp)
        (fun j hj => by simpa using hmin (j + 1) (by omega))]
      rfl

theorem findTerm_spec (lines : List Line) (s : Nat) (ts : List Str)
    (hs : s < lines.length) :
    s < findTerm lines s ts ∧ findTerm lines s ts ≤ lines.length ∧
      (∀ j, s < j → j < findTerm lines s ts →
        ts.contains (strip (lines.getD j [])) = false) ∧
      (findTerm lines s ts < lines.length →
        ts.contains (strip (lines.getD (findTerm lines s ts) [])) = true) := by
  match hb : findFrom (fun l => ts.contains (strip l)) (lines.drop (s + 1)) (s + 1) with
  | none =>
    have he : findTerm lines s ts = lines.length := by simp only [findTerm, hb]
    rw [he]
    have hall := (findFrom_none_iff _ _ _).mp hb
    refine ⟨hs, le_refl _, ?_, by omega⟩
    intro j hj1 hj2
    have hmem : lines.getD j [] ∈ lines.drop (s + 1) := by
      have hidx : j - (s + 1) < (lines.drop (s + 1)).length := by
        simp only [List.length_drop]; omega
      have := List.getD_eq_getElem (lines.drop (s + 1)) [] hidx
      rw [getD_drop'] at this
      have harith : s + 1 + (j - (s + 1)) = j := by omega
      rw [harith] at this
      exact this ▸ List.getElem_mem hidx
    exact hall _ hmem
  | some e =>
    have he : findTerm lines s ts = e := by simp only [findTerm, hb]
    rw [he]
    rw [findFrom_shift] at hb
    match hb0 : findFrom (fun l => ts.contains (strip l)) (lines.drop (s + 1)) 0 with
    | none => rw [hb0] at hb; exact absurd hb (by simp)
    | some e0 =>
      rw [hb0] at hb
      obtain rfl : e = e0 + (s + 1) := by simpa using hb.symm
      obtain ⟨h1, h2, h3⟩ := findFrom_zero_some hb0
      simp only [List.length_drop] at h1
      rw [getD_drop'] at h2
      refine ⟨by omega, by omega, ?_, fun _ => ?_⟩
      · intro j hj1 hj2
        have := h3 (j - (s + 1)) (by omega)
        rw [getD_drop'] at this
        have harith : s + 1 + (j - (s + 1)) = j := by omega
        rwa [harith] at this
      · have harith : s + 1 + e0 = e0 + (s + 1) := by omega
        rw [harith] at h2
        exact h2

/-! ### C7: the Block Locator contract -/

/-- C7: `extract_block` returns the slice from the first line whose trimmed
text equals the header up to (exclusively) the first later line whose
trimmed text is in the terminator set (or end of file); the header is never
matched as a terminator (the terminator scan starts after it), and an
absent header yields the empty result. -/
theorem extract_block_locates (lines : List Line) (header : Str) (ts : List Str) :
    ((∀ j, j < lines.length → strip (lines.getD j []) ≠ header) →
      extract_block lines header ts = []) ∧
    (∀ s, s < lines.length → strip (lines.getD s []) = header →
      (∀ j, j < s → strip (lines.getD j []) ≠ header) →
      s < findTerm lines s ts ∧ findTerm lines s ts ≤ lines.length ∧
        extract_block lines header ts =
          (lines.drop s).take (findTerm lines s ts - s) ∧
        (∀ j, s < j → j < findTerm lines s ts →
          strip (lines.getD j []) ∉ ts) ∧
        (findTerm lines s ts < lines.length →
          strip (lines.getD (findTerm lines s ts) []) ∈ ts)) := by
  constructor
  · intro hno
    have hnone : findHeader lines header = none := by
      rw [findHeader, findFrom_none_iff]
      intro l hl
      obtain ⟨j, hj, rfl⟩ := List.mem_iff_getElem.mp hl
      have := hno j hj
      rw [List.getD_eq_getElem lines [] hj] at this
      simpa using this
    simp [extract_block, hnone]
  · intro s hs hhead hfirst
    have hsome : findHeader lines header = some s := by
      apply findFrom_zero_eq_some hs
      · simpa using hhead
      · intro j hj
        simpa using hfirst j hj
    obtain ⟨h1, h2, h3, h4⟩ := findTerm_spec lines s ts hs
    refine ⟨h1, h2, by simp [extract_block, hsome], ?_, ?_⟩
    · intro j hj1 hj2 hmem
      have := h3 j hj1 hj2
      rw [List.contains_eq_any_beq] at this
      simp only [List.any_eq_false] at this
      have := this _ hmem
      simp at this
    · intro hlt
      have := h4 hlt
      rw [List.contains_eq_any_beq] at this
      simp only [List.any_eq_true] at this
      obtain ⟨x, hx, hbeq⟩ := this
      obtain rfl : strip (lines.getD (findTerm lines s ts) []) = x := by
        simpa using hbeq
      exact hx

/-- C7 (witness): the locator on a concrete four-line file with the header
on line 1 and a terminator on line 3. -/
theorem extract_block_locates_witness :
    extract_block [str "x\n", str "# H\n", str "a=1\n", str "# T\n", str "z\n"]
        (str "# H") [str "# T"] =
      (([str "x\n", str "# H\n", str "a=1\n", str "# T\n", str "z\n"] : List Line).drop 1).take
        (findTerm [str "x\n", str "# H\n", str "a=1\n", str "# T\n", str "z\n"] 1 [str "# T"] - 1) :=
  ((extract_block_locates [str "x\n", str "# H\n", str "a=1\n", str "# T\n", str "z\n"]
      (str "# H") [str "# T"]).2 1 (by decide) (by decide) (by decide)).2.2.1

/-! ### C6: non-interference outside the located section -/

theorem splice_frame (lines mid : List Line) (s e : Nat) (hs : s ≤ lines.length) :
    (lines.take s ++ mid ++ lines.drop e).take s = lines.take s ∧
    (lines.take s ++ mid ++ lines.drop e).drop
        ((lines.take s ++ mid ++ lines.drop e).length - (lines.drop e).length) =
      lines.drop e := by
  constructor
  · have hlen : (lines.take s).length = s := by
      simp only [List.length_take]
      omega
    rw [List.append_assoc]
    calc (lines.take s ++ (mid ++ lines.drop e)).take s
        = (lines.take s ++ (mid ++ lines.drop e)).take (lines.take s).length := by rw [hlen]
      _ = lines.take s := List.take_left _ _
  · have hlen2 : (lines.take s ++ mid ++ lines.drop e).length - (lines.drop e).length =
        (lines.take s ++ mid).length := by
      simp only [List.length_append]
      omega
    rw [hlen2]
    exact List.drop_left _ _

/-- C6: each of `replace_block` and the two
`update_properties_block_preserve_format` variants returns
`lines[:start] + new_section + lines[end:]` — every line strictly before
the located `start` and at or after the located `end` is byte-identical in
the output (the initial segment and the final segment of the output are the
unchanged originals). -/
theorem section_update_frame (lines block : List Line) (m : PDict)
    (header : Str) (ts : List Str) (s : Nat)
    (hfind : findHeader lines header = some s) :
    ∃ mid1 mid2 mid3,
      replace_block lines block header ts =
          lines.take s ++ mid1 ++ lines.drop (findTerm lines s ts) ∧
        (replace_block lines block header ts).take s = lines.take s ∧
      FileOps.update_properties_block_preserve_format lines m header ts =
          lines.take s ++ mid2 ++ lines.drop (findTerm lines s ts) ∧
        (FileOps.update_properties_block_preserve_format lines m header ts).take s =
          lines.take s ∧
      TuningProc.update_properties_block_preserve_format lines m header ts =
          lines.take s ++ mid3 ++ lines.drop (findTerm lines s ts) ∧
        (TuningProc.update_properties_block_preserve_format lines m header ts).take s =
          lines.take s := by
  have hs : s ≤ lines.length := le_of_lt (findFrom_zero_some hfind).1
  have h1 : ∃ mid, replace_block lines block header ts =
      lines.take s ++ mid ++ lines.drop (findTerm lines s ts) := by
    simp only [replace_block, hfind]
    exact ⟨block, rfl⟩
  have h2 : ∃ mid, FileOps.update_properties_block_preserve_format lines m header ts =
      lines.take s ++ mid ++ lines.drop (findTerm lines s ts) := by
    simp only [FileOps.update_properties_block_preserve_format, hfind]
    exact ⟨_, rfl⟩
  have h3 : ∃ mid, TuningProc.update_properties_block_preserve_format lines m header ts =
      lines.take s ++ mid ++ lines.drop (findTerm lines s ts) := by
    simp only [TuningProc.update_properties_block_preserve_format, hfind]
    exact ⟨_, rfl⟩
  obtain ⟨mid1, h1⟩ := h1
  obtain ⟨mid2, h2⟩ := h2
  obtain ⟨mid3, h3⟩ := h3
  refine ⟨mid1, mid2, mid3, h1, ?_, h2, ?_, h3, ?_⟩
  · rw [h1]; exact (splice_frame lines mid1 s _ hs).1
  · rw [h2]; exact (splice_frame lines mid2 s _ hs).1
  · rw [h3]; exact (splice_frame lines mid3 s _ hs).1

/-- C6 (witness): the frame property applied to Scenario A with the LMKD
header located at line 0. -/
theorem section_update_frame_witness :
    ∃ mid1 mid2 mid3,
      replace_block scenarioA [str "# LMKD property\n"] lmkdHeader lmkdTerms =
          scenarioA.take 0 ++ mid1 ++ scenarioA.drop (findTerm scenarioA 0 lmkdTerms) ∧
        (replace_block scenarioA [str "# LMKD property\n"] lmkdHeader lmkdTerms).take 0 =
          scenarioA.take 0 ∧
      FileOps.update_properties_block_preserve_format scenarioA
            [(str "a", str "5")] lmkdHeader lmkdTerms =
          scenarioA.take 0 ++ mid2 ++ scenarioA.drop (findTerm scenarioA 0 lmkdTerms) ∧
        (FileOps.update_properties_block_preserve_format scenarioA
            [(str "a", str "5")] lmkdHeader lmkdTerms).take 0 = scenarioA.take 0 ∧
      TuningProc.update_properties_block_preserve_format scenarioA
            [(str "a", str "5")] lmkdHeader lmkdTerms =
          scenarioA.take 0 ++ mid3 ++ scenarioA.drop (findTerm scenarioA 0 lmkdTerms) ∧
        (TuningProc.update_properties_block_preserve_format scenarioA
            [(str "a", str "5")] lmkdHeader lmkdTerms).take 0 = scenarioA.take 0 :=
  section_update_frame scenarioA [str "# LMKD property\n"] [(str "a", str "5")]
    lmkdHeader lmkdTerms 0 (by decide)

/-! ### Evaluating the parser on structured lines -/

theorem strip_eq_of_head_last (c : Char) (t : Str) (hc : isWS c = false)
    (hlast : ∃ d t', c :: t = t' ++ [d] ∧ isWS d = false) :
    strip (c :: t) = c :: t := by
  unfold strip
  rw [lstrip_cons_not_ws _ _ hc]
  obtain ⟨d, t', he, hd⟩ := hlast
  rw [he, rstrip_append_last _ _ hd]

theorem parse_append_line (bs : List Line) (l : Line) :
    parse_properties_block (bs ++ [l]) = parseStep (parse_properties_block bs) l := by
  unfold parse_properties_block
  rw [List.foldl_append]
  rfl

theorem parseStep_comment (acc : PDict) (l : Line) (h : isCB l = true) :
    parseStep acc l = acc := by
  unfold isCB at h
  unfold parseStep
  rw [if_pos h]

theorem parseStep_prop_line (acc : PDict) (ind k v tail : Str)
    (hind : ∀ c ∈ ind, isWS c = true) (htail : ∀ c ∈ tail, isWS c = true)
    (hkne : k ≠ [])
    (hk : ∀ c ∈ k, isWS c = false ∧ c ≠ '=' ∧ c ≠ '#')
    (hlast : ∃ d t', k ++ '=' :: v = t' ++ [d] ∧ isWS d = false)
    (hhash : (strip v).contains '#' = false) :
    parseStep acc (ind ++ k ++ '=' :: v ++ tail) = dset acc k (strip v) := by
  obtain ⟨c, k₁, rfl⟩ : ∃ c k₁, k = c :: k₁ := by
    cases k with
    | nil => exact absurd rfl hkne
    | cons c k₁ => exact ⟨c, k₁, rfl⟩
  have hc := hk c (by simp)
  have hshape : ind ++ (c :: k₁) ++ '=' :: v ++ tail = ind ++ (c :: (k₁ ++ '=' :: v)) ++ tail := by
    simp
  have hstrip : strip (ind ++ (c :: k₁) ++ '=' :: v ++ tail) = c :: (k₁ ++ '=' :: v) := by
    rw [hshape]
    refine strip_sandwich ind tail c (k₁ ++ '=' :: v) hind htail hc.1 ?_
    obtain ⟨d, t', he, hd⟩ := hlast
    exact ⟨d, t', by simpa using he, hd⟩
  have hsplit : splitOnce '=' (c :: (k₁ ++ '=' :: v)) = (c :: k₁, v) := by
    have := splitOnce_no_sep '=' (c :: k₁) v fun x hx => (hk x hx).2.1
    simpa using this
  have hkeystrip : strip (c :: k₁) = c :: k₁ :=
    strip_eq_of_forall_not_ws _ fun x hx => (hk x hx).1
  simp only [parseStep, hstrip]
  rw [if_neg (by
    simp only [List.isEmpty_cons, Bool.false_or]
    rw [startsWith_hash_cons c _ hc.2.2]
    simp)]
  rw [if_pos (contains_of_mem (by simp))]
  simp only [hsplit, hkeystrip, hhash, Bool.false_eq_true, if_false]

/-! ### C4: the parser applies no continuation stripping -/

/-- C4 (amended): for an override-group member line
`indent k=value \` (trailing continuation marker), the parser stores the
value `value \` — the backslash marker is retained, not stripped — and the
introducer line `PRODUCT_PROPERTY_OVERRIDES += \` itself contributes the
key `PRODUCT_PROPERTY_OVERRIDES +` with value `\` to the mapping. -/
theorem parse_member_line_value (bs : List Line) (ind k v : Str)
    (hind : ∀ c ∈ ind, isWS c = true)
    (hkne : k ≠ []) (hk : ∀ c ∈ k, isWS c = false ∧ c ≠ '=' ∧ c ≠ '#')
    (hvne : v ≠ []) (hv : ∀ c ∈ v, isWS c = false ∧ c ≠ '#') :
    parse_properties_block (bs ++ [ind ++ k ++ '=' :: v ++ str " \\\n"]) =
      dset (parse_properties_block bs) k (v ++ str " \\") ∧
    parse_properties_block (bs ++ [str "PRODUCT_PROPERTY_OVERRIDES += \\\n"]) =
      dset (parse_properties_block bs) (str "PRODUCT_PROPERTY_OVERRIDES +") (str "\\") := by
  constructor
  · rw [parse_append_line]
    have htl : str " \\\n" = [' ', '\\', '\n'] := rfl
    obtain ⟨d, v', hvd, hd⟩ : ∃ d v', v = v' ++ [d] ∧ isWS d = false := by
      cases hr : v.reverse with
      | nil => exact absurd (by simpa using congrArg List.reverse hr) hvne
      | cons d t =>
        have hv' : v = t.reverse ++ [d] := by
          have := congrArg List.reverse hr
          simpa using this
        exact ⟨d, t.reverse, hv', (hv d (by rw [hv']; simp)).1⟩
    have hvh : ∃ c0 t0, v = c0 :: t0 := by
      cases v with
      | nil => exact absurd rfl hvne
      | cons c0 t0 => exact ⟨c0, t0, rfl⟩
    obtain ⟨c0, t0, rfl⟩ := hvh
    have hshape : (c0 :: t0) ++ str " \\\n" = ((c0 :: t0) ++ [' ', '\\']) ++ ['\n'] := by
      rw [htl]; simp
    have hstripv : strip ((c0 :: t0) ++ [' ', '\\']) = (c0 :: t0) ++ [' ', '\\'] := by
      refine strip_eq_of_head_last c0 (t0 ++ [' ', '\\']) (hv c0 (by simp)).1 ?_
      exact ⟨'\\', c0 :: t0 ++ [' '], by simp, by decide⟩
    have := parseStep_prop_line (parse_properties_block bs) ind k ((c0 :: t0) ++ [' ', '\\'])
      ['\n'] hind (by intro x hx; simp at hx; subst hx; rfl) hkne hk
      ⟨'\\', k ++ '=' :: (c0 :: t0 ++ [' ']), by simp, by decide⟩
      (by
        rw [hstripv]
        refine contains_eq_false_of_not_mem ?_
        intro hmem
        simp only [List.cons_append, List.mem_cons, List.mem_append] at hmem
        rcases hmem with h1 | h1 | h1
        · exact (hv c0 (by simp)).2 h1.symm
        · exact (hv _ (by simp [h1])).2 rfl
        · simp at h1)
    have h2 : str " \\" = [' ', '\\'] := rfl
    simp only [List.cons_append, List.append_assoc, List.nil_append, htl, h2] at this hstripv ⊢
    rw [this, hstripv]
  · rw [parse_append_line]
    rfl

/-- C4 (witness): the amended member-line parse applied to `    p=1 \`. -/
theorem parse_member_line_value_witness :
    parse_properties_block ([] ++ [str "    " ++ str "p" ++ '=' :: str "1" ++ str " \\\n"]) =
      dset (parse_properties_block []) (str "p") (str "1" ++ str " \\") :=
  (parse_member_line_value [] (str "    ") (str "p") (str "1") (by decide) (by decide)
    (by decide) (by decide) (by decide)).1

/-! ### The rewrite loop on simple sections -/

theorem strip_prop_line (ind k v tail : Str)
    (hind : ∀ c ∈ ind, isWS c = true) (htail : ∀ c ∈ tail, isWS c = true)
    (hkne : k ≠ []) (hk : ∀ c ∈ k, isWS c = false) (hv : ∀ c ∈ v, isWS c = false) :
    strip (ind ++ k ++ '=' :: v ++ tail) = k ++ '=' :: v := by
  obtain ⟨c, k₁, rfl⟩ : ∃ c k₁, k = c :: k₁ := by
    cases k with
    | nil => exact absurd rfl hkne
    | cons c k₁ => exact ⟨c, k₁, rfl⟩
  have hshape : ind ++ (c :: k₁) ++ '=' :: v ++ tail = ind ++ (c :: (k₁ ++ '=' :: v)) ++ tail := by
    simp
  rw [hshape]
  have := strip_sandwich ind tail c (k₁ ++ '=' :: v) hind htail (hk c (by simp)) ?_
  · simpa using this
  · obtain ⟨d, t', he, hd⟩ := exists_last_decomp v hv (c :: k₁)
    exact ⟨d, t', by simpa using he, hd⟩

theorem leadingWS_prop_line (ind k v tail : Str)
    (hind : ∀ c ∈ ind, isWS c = true) (hkne : k ≠ []) (hk : ∀ c ∈ k, isWS c = false) :
    leadingWS (ind ++ k ++ '=' :: v ++ tail) = ind := by
  obtain ⟨c, k₁, rfl⟩ : ∃ c k₁, k = c :: k₁ := by
    cases k with
    | nil => exact absurd rfl hkne
    | cons c k₁ => exact ⟨c, k₁, rfl⟩
  have hshape : ind ++ (c :: k₁) ++ '=' :: v ++ tail = ind ++ c :: (k₁ ++ '=' :: v ++ tail) := by
    simp
  rw [hshape]
  exact leadingWS_sandwich ind c _ hind (hk c (by simp))

theorem updatedPropLines_derase (props : List SProp) (m : PDict) (k : Str)
    (h : ∀ q ∈ props, q.key ≠ k) :
    updatedPropLines props (derase m k) = updatedPropLines props m := by
  unfold updatedPropLines
  refine List.map_congr_left fun q hq => ?_
  rw [dget?_derase_ne m q.key k (h q hq)]

theorem contains_cons_key (ks : List Str) (a x : Str) :
    (a :: ks).contains x = ((x == a) || ks.contains x) := by
  rw [List.contains_eq_any_beq, List.contains_eq_any_beq]
  rfl

/-- The rewrite loop of the `file_operations` variant on a section body made
only of well-formed regular property lines: keys in the mapping are updated
in place, others kept verbatim; the surviving `remaining_properties` are
exactly the mapping entries whose key does not occur in the body; the final
insertion index sits right after the last property line. -/
theorem processLoop_props (props : List SProp) (m : PDict) (li cl : Nat)
    (hok : ∀ p ∈ props, p.ok)
    (hnd : (props.map SProp.key).Nodup)
    (hmnd : (m.map Prod.fst).Nodup) :
    FileOps.processLoop (props.map mkPropLine) .regular m li cl =
      (updatedPropLines props m,
        m.filter (fun kv => !((props.map SProp.key).contains kv.1)),
        if props.isEmpty then li else cl + props.length) := by
  induction props generalizing m li cl with
  | nil =>
    have hfilter : m.filter (fun kv => !(([] : List Str).contains kv.1)) = m :=
      List.filter_eq_self.mpr fun _ _ => rfl
    simp only [List.map_nil, FileOps.processLoop, updatedPropLines, List.isEmpty_nil, if_true,
      hfilter]
  | cons p props' ih =>
    obtain ⟨hind, hkne, hkclean, hvclean, hovs1, hovs2⟩ := hok p (by simp)
    have hstrip : strip (mkPropLine p) = p.key ++ '=' :: p.val := by
      have := strip_prop_line p.ind p.key p.val (str "\n") hind (by decide) hkne
        (fun c hc => (hkclean c hc).1) (fun c hc => (hvclean c hc).1)
      simpa [mkPropLine] using this
    obtain ⟨c, k₁, hkeq⟩ : ∃ c k₁, p.key = c :: k₁ := by
      cases hpk : p.key with
      | nil => exact absurd hpk hkne
      | cons c k₁ => exact ⟨c, k₁, rfl⟩
    have hc := hkclean c (by rw [hkeq]; simp)
    have hempty : (p.key ++ '=' :: p.val).isEmpty = false := by rw [hkeq]; rfl
    have hhash : startsWith (str "#") (p.key ++ '=' :: p.val) = false := by
      rw [hkeq, List.cons_append]
      exact startsWith_hash_cons c _ hc.2.2
    have hcontains : (p.key ++ '=' :: p.val).contains '=' = true :=
      contains_of_mem (by simp)
    have hsplit : splitOnce '=' (p.key ++ '=' :: p.val) = (p.key, p.val) :=
      splitOnce_no_sep '=' p.key p.val fun x hx => (hkclean x hx).2.1
    have hkeystrip : strip p.key = p.key :=
      strip_eq_of_forall_not_ws _ fun x hx => (hkclean x hx).1
    have hleading : leadingWS (mkPropLine p) = p.ind := by
      have := leadingWS_prop_line p.ind p.key p.val (str "\n") hind hkne
        (fun x hx => (hkclean x hx).1)
      simpa [mkPropLine] using this
    have hvhash : p.val.contains '#' = false :=
      contains_eq_false_of_not_mem fun hmem => (hvclean _ hmem).2 rfl
    have hnd' : (props'.map SProp.key).Nodup := (List.nodup_cons.mp (by simpa using hnd)).2
    have hpk_notin : p.key ∉ props'.map SProp.key := (List.nodup_cons.mp (by simpa using hnd)).1
    have hkeys_ne : ∀ q ∈ props', q.key ≠ p.key := by
      intro q hq he
      exact hpk_notin (he ▸ List.mem_map_of_mem SProp.key hq)
    simp only [List.map_cons, FileOps.processLoop, hstrip]
    rw [if_neg (by simp [hempty, hhash])]
    rw [if_neg (by simp [hovs1])]
    rw [if_pos (by simp [hcontains, hovs1])]
    simp only [hsplit, hkeystrip, hleading, hvhash, Bool.false_eq_true, if_false]
    cases hget : dget? m p.key with
    | some nv =>
      have hmnd' : ((derase m p.key).map Prod.fst).Nodup :=
        hmnd.sublist ((derase_sublist m p.key).map Prod.fst)
      rw [ih (derase m p.key) (cl + 1) (cl + 1)
        (fun q hq => hok q (by simp [hq])) hnd' hmnd']
      simp only [Prod.mk.injEq]
      refine ⟨?_, ?_, ?_⟩
      · rw [updatedPropLines_derase props' m p.key hkeys_ne]
        simp only [updatedPropLines, List.map_cons, hget]
        simp [mkPropLine]
      · rw [derase_eq_filter m p.key hmnd, List.filter_filter]
        refine List.filter_congr fun kv hkv => ?_
        simp only [List.map_cons, contains_cons_key, Bool.not_or]
        rw [Bool.and_comm]
      · by_cases hpe : props'.isEmpty = true
        · have : props' = [] := by simpa [List.isEmpty_iff] using hpe
          subst this
          simp
        · have hfalse : props'.isEmpty = false := by simpa using hpe
          simp only [hfalse, Bool.false_eq_true, if_false, List.isEmpty_cons,
            List.length_cons]
          omega
    | none =>
      have hnotin : ∀ kv ∈ m, kv.1 ≠ p.key := (dget?_eq_none_iff m p.key).mp hget
      rw [ih m (cl + 1) (cl + 1) (fun q hq => hok q (by simp [hq])) hnd' hmnd]
      simp only [Prod.mk.injEq]
      refine ⟨?_, ?_, ?_⟩
      · simp only [updatedPropLines, List.map_cons, hget]
      · refine List.filter_congr fun kv hkv => ?_
        have : (kv.1 == p.key) = false := beq_eq_false_iff_ne.mpr (hnotin kv hkv)
        simp only [List.map_cons, contains_cons_key, this, Bool.false_or]
      · by_cases hpe : props'.isEmpty = true
        · have : props' = [] := by simpa [List.isEmpty_iff] using hpe
          subst this
          simp
        · have hfalse : props'.isEmpty = false := by simpa using hpe
          simp only [hfalse, Bool.false_eq_true, if_false, List.isEmpty_cons,
            List.length_cons]
          omega

/-! ### Locating a structured section inside a full line sequence -/

theorem getD_append_self (a : List Line) (x : Line) (b : List Line) :
    (a ++ x :: b).getD a.length [] = x := by
  induction a with
  | nil => rfl
  | cons y a' ih => simpa using ih

theorem findHeader_append (pre rest : List Line) (headerLine : Line) (hd : Str)
    (hpre : ∀ l ∈ pre, strip l ≠ hd) (hh : strip headerLine = hd) :
    findHeader (pre ++ headerLine :: rest) hd = some pre.length := by
  apply findFrom_zero_eq_some
  · simp only [List.length_append, List.length_cons]
    omega
  · rw [getD_append_self]
    exact beq_iff_eq.mpr hh
  · intro j hj
    rw [List.getD_append _ _ _ _ hj]
    have hmem : pre.getD j [] ∈ pre := by
      rw [List.getD_eq_getElem pre [] hj]
      exact List.getElem_mem hj
    exact beq_eq_false_iff_ne.mpr (hpre _ hmem)

theorem findFrom_append_false (p : Line → Bool) (a b : List Line) (i : Nat)
    (h : ∀ x ∈ a, p x = false) :
    findFrom p (a ++ b) i = findFrom p b (i + a.length) := by
  induction a generalizing i with
  | nil => simp [findFrom]
  | cons x a' ih =>
    have hx : p x = false := h x (by simp)
    simp only [List.cons_append, findFrom, hx, Bool.false_eq_true, if_false]
    rw [show a'.append b = a' ++ b from rfl]
    rw [ih (i + 1) fun y hy => h y (by simp [hy])]
    congr 1
    simp only [List.length_cons]
    omega

theorem findTerm_append (pre body suf : List Line) (headerLine : Line) (ts : List Str)
    (hbody : ∀ l ∈ body, ts.contains (strip l) = false)
    (hsuf : suf = [] ∨ ts.contains (strip suf.headI) = true) :
    findTerm (pre ++ headerLine :: body ++ suf) pre.length ts =
      pre.length + 1 + body.length := by
  have hdrop : (pre ++ headerLine :: body ++ suf).drop (pre.length + 1) = body ++ suf := by
    rw [show pre ++ headerLine :: body ++ suf = (pre ++ [headerLine]) ++ (body ++ suf) by simp]
    rw [show pre.length + 1 = (pre ++ [headerLine]).length by simp]
    exact List.drop_left _ _
  unfold findTerm
  rw [hdrop, findFrom_append_false _ body suf (pre.length + 1) fun x hx => hbody x hx]
  cases suf with
  | nil =>
    simp only [findFrom, List.length_append, List.length_cons, List.length_nil]
    omega
  | cons s0 suf' =>
    rcases hsuf with h | h
    · exact absurd h (by simp)
    · have hh : ts.contains (strip s0) = true := by simpa using h
      simp only [findFrom, hh, if_true]

theorem take_section (pre body suf : List Line) (headerLine : Line) :
    ((pre ++ headerLine :: body ++ suf).drop pre.length).take (1 + body.length) =
      headerLine :: body := by
  rw [show pre ++ headerLine :: body ++ suf = pre ++ (headerLine :: (body ++ suf)) by simp]
  rw [List.drop_left pre _]
  rw [Nat.add_comm 1 body.length, List.take_succ_cons, List.take_left]

theorem drop_section (pre body suf : List Line) (headerLine : Line) :
    (pre ++ headerLine :: body ++ suf).drop (pre.length + 1 + body.length) = suf := by
  rw [show pre ++ headerLine :: body ++ suf = (pre ++ headerLine :: body) ++ suf by simp]
  rw [show pre.length + 1 + body.length = (pre ++ headerLine :: body).length by
    simp only [List.length_append, List.length_cons]
    omega]
  exact List.drop_left _ _

/-! ### C1: keys absent from `new_mapping` are NOT deleted -/

/-- C1 (amended): on a line sequence containing a section of well-formed
regular property lines, `update_properties_block_preserve_format`
(file_operations variant, identical to the regular-line handling of the
tuning_process variant) does NOT delete keys absent from `new_mapping`:
those lines are kept verbatim; keys present in `new_mapping` are updated
in place reusing the original indentation, and mapping keys new to the
section are appended directly after the last property line. -/
theorem update_simple_section_shape
    (pre suf : List Line) (headerLine : Line) (props : List SProp) (m : PDict)
    (hd : Str) (ts : List Str)
    (hpre : ∀ l ∈ pre, strip l ≠ hd)
    (hh : strip headerLine = hd)
    (hok : ∀ p ∈ props, p.ok)
    (hnd : (props.map SProp.key).Nodup)
    (hm : MClean m)
    (hbody : ∀ p ∈ props, ts.contains (strip (mkPropLine p)) = false)
    (hsuf : suf = [] ∨ ts.contains (strip suf.headI) = true) :
    FileOps.update_properties_block_preserve_format
        (pre ++ headerLine :: props.map mkPropLine ++ suf) m hd ts =
      pre ++ headerLine ::
        (updatedPropLines props m ++ appendedPropLines headerLine props m) ++ suf := by
  have hfh : findHeader (pre ++ headerLine :: props.map mkPropLine ++ suf) hd =
      some pre.length := by
    rw [show pre ++ headerLine :: props.map mkPropLine ++ suf =
        pre ++ headerLine :: (props.map mkPropLine ++ suf) by simp]
    exact findHeader_append pre (props.map mkPropLine ++ suf) headerLine hd hpre hh
  have hft : findTerm (pre ++ headerLine :: props.map mkPropLine ++ suf) pre.length ts =
      pre.length + 1 + props.length := by
    have := findTerm_append pre (props.map mkPropLine) suf headerLine ts
      (by
        rintro l hl
        obtain ⟨p, hp, rfl⟩ := List.mem_map.mp hl
        exact hbody p hp) hsuf
    simpa using this
  have harith : pre.length + 1 + props.length - pre.length = 1 + props.length := by omega
  have hslice : ((pre ++ headerLine :: props.map mkPropLine ++ suf).drop pre.length).take
      (1 + props.length) = headerLine :: props.map mkPropLine := by
    have := take_section pre (props.map mkPropLine) suf headerLine
    simpa using this
  have hdrop : (pre ++ headerLine :: props.map mkPropLine ++ suf).drop
      (pre.length + 1 + props.length) = suf := by
    have := drop_section pre (props.map mkPropLine) suf headerLine
    simpa using this
  have htake : (pre ++ headerLine :: props.map mkPropLine ++ suf).take pre.length = pre := by
    rw [show pre ++ headerLine :: props.map mkPropLine ++ suf =
        pre ++ (headerLine :: props.map mkPropLine ++ suf) by simp]
    exact List.take_left pre _
  have hpl := processLoop_props props m 1 1 hok hnd hm.1
  simp only [FileOps.update_properties_block_preserve_format, hfh, hft, harith, hslice,
    List.headI_cons, List.tail_cons, hpl, hdrop, htake]
  by_cases hre : (m.filter fun kv => !((props.map SProp.key).contains kv.1)).isEmpty = true
  · have hnil : (m.filter fun kv => !((props.map SProp.key).contains kv.1)) = [] := by
      simpa [List.isEmpty_iff] using hre
    simp only [hre, if_true, appendedPropLines, hnil, List.map_nil, List.append_nil,
      List.isEmpty_nil]
  · have hfalse : (m.filter fun kv => !((props.map SProp.key).contains kv.1)).isEmpty = false := by
      simpa using hre
    simp only [hfalse, Bool.false_eq_true, if_false]
    cases props with
    | nil =>
      simp only [List.map_nil, updatedPropLines, List.isEmpty_nil, if_true,
        appendedPropLines, List.nil_append]
      simp [List.singleton_append]
    | cons q ps =>
      have hlen : (1 : Nat) + (q :: ps).length =
          (headerLine :: updatedPropLines (q :: ps) m).length := by
        simp only [List.length_cons, updatedPropLines, List.length_map]
        omega
      simp only [List.isEmpty_cons, Bool.false_eq_true, if_false, hlen,
        List.take_length, List.drop_length, List.append_nil]
      simp [appendedPropLines, updatedPropLines, List.singleton_append]

/-- C1 (witness): the amended shape theorem applied to Scenario A
(`a=1`, `b=2` with `new_mapping = {a: "5"}`). -/
theorem update_simple_section_shape_witness :
    FileOps.update_properties_block_preserve_format
        ([] ++ (str "# LMKD property\n") ::
          [⟨[], str "a", str "1"⟩, ⟨[], str "b", str "2"⟩].map mkPropLine ++
          [str "# Chimera property\n", str "c=3\n"])
        [(str "a", str "5")] lmkdHeader lmkdTerms =
      [] ++ (str "# LMKD property\n") ::
        (updatedPropLines [⟨[], str "a", str "1"⟩, ⟨[], str "b", str "2"⟩]
            [(str "a", str "5")] ++
          appendedPropLines (str "# LMKD property\n")
            [⟨[], str "a", str "1"⟩, ⟨[], str "b", str "2"⟩] [(str "a", str "5")]) ++
        [str "# Chimera property\n", str "c=3\n"] :=
  update_simple_section_shape [] [str "# Chimera property\n", str "c=3\n"]
    (str "# LMKD property\n") [⟨[], str "a", str "1"⟩, ⟨[], str "b", str "2"⟩]
    [(str "a", str "5")] lmkdHeader lmkdTerms
    (by decide) (by decide) (by decide) (by decide) (by decide) (by decide)
    (Or.inr (by decide))

/-- C1 (counterexample): on Scenario A with `new_mapping = {a: "5"}`, both
active implementations of `update_properties_block_preserve_format` keep the
line `b=2` even though key `b` was parsed from the original section and is
absent from `new_mapping`; the claimed deletion does not happen. -/
theorem scenarioA_keeps_deleted_key :
    FileOps.update_properties_block_preserve_format scenarioA
        [(str "a", str "5")] lmkdHeader lmkdTerms =
      [str "# LMKD property\n", str "a=5\n", str "b=2\n",
       str "# Chimera property\n", str "c=3\n"] ∧
    TuningProc.update_properties_block_preserve_format scenarioA
        [(str "a", str "5")] lmkdHeader lmkdTerms =
      [str "# LMKD property\n", str "a=5\n", str "b=2\n",
       str "# Chimera property\n", str "c=3\n"] ∧
    dmem (parse_properties_block (extract_block scenarioA lmkdHeader lmkdTerms)) (str "b") = true ∧
    dmem [(str "a", str "5")] (str "b") = false := by
  decide

/-! ### Parsing the synthesized section -/

theorem contains_of_mem_str {c : Str} {s : List Str} (h : c ∈ s) : s.contains c = true :=
  List.elem_eq_true_of_mem h

theorem not_mem_of_contains_false {c : Str} {s : List Str} (h : s.contains c = false) :
    c ∉ s := by
  intro hmem
  rw [contains_of_mem_str hmem] at h
  exact absurd h (by simp)

theorem firstPropIndent_ws (ls : List Line) : ∀ c ∈ firstPropIndent ls, isWS c = true := by
  unfold firstPropIndent
  split
  · intro c hc
    exact List.mem_takeWhile_imp hc
  · intro c hc
    have hstr : str "    " = [' ', ' ', ' ', ' '] := rfl
    rw [hstr] at hc
    simp only [List.mem_cons, List.not_mem_nil, or_false] at hc
    rcases hc with rfl | rfl | rfl | rfl <;> rfl

/-- Parsing a list of rendered well-formed property lines folds `dset` over
the key/value pairs. -/
theorem parse_rendered (ts : List (Str × Str × Str))
    (h : ∀ t ∈ ts, (∀ c ∈ t.1, isWS c = true) ∧ t.2.1 ≠ [] ∧
      (∀ c ∈ t.2.1, isWS c = false ∧ c ≠ '=' ∧ c ≠ '#') ∧
      (∀ c ∈ t.2.2, isWS c = false ∧ c ≠ '#')) :
    ∀ acc, (ts.map fun t => t.1 ++ t.2.1 ++ '=' :: t.2.2 ++ str "\n").foldl parseStep acc =
      ts.foldl (fun acc t => dset acc t.2.1 t.2.2) acc := by
  induction ts with
  | nil => intro acc; rfl
  | cons t ts' ih =>
    intro acc
    obtain ⟨hind, hkne, hk, hv⟩ := h t (by simp)
    simp only [List.map_cons, List.foldl_cons]
    rw [parseStep_prop_line acc t.1 t.2.1 t.2.2 (str "\n") hind (by decide) hkne hk
      (exists_last_decomp t.2.2 (fun c hc => (hv c hc).1) t.2.1)
      (by
        rw [strip_eq_of_forall_not_ws _ fun c hc => (hv c hc).1]
        exact contains_eq_false_of_not_mem fun hmem => (hv _ hmem).2 rfl)]
    rw [strip_eq_of_forall_not_ws _ fun c hc => (hv c hc).1]
    exact ih (fun t' ht' => h t' (by simp [ht'])) _

/-- Folding `dset` over pairs with fresh, pairwise-distinct keys appends
them in order. -/
theorem foldl_dset_nodup (ps : List (Str × Str)) :
    ∀ acc, (ps.map Prod.fst).Nodup → (∀ kv ∈ ps, ∀ kv' ∈ acc, kv'.1 ≠ kv.1) →
      ps.foldl (fun acc kv => dset acc kv.1 kv.2) acc = acc ++ ps := by
  induction ps with
  | nil => intro acc _ _; simp
  | cons kv ps' ih =>
    intro acc hnd hdisj
    have hnd0 : (kv.1 :: ps'.map Prod.fst).Nodup := by
      simpa only [List.map_cons] using hnd
    have hnd' := List.nodup_cons.mp hnd0
    simp only [List.foldl_cons]
    rw [dset_append_of_not_mem acc kv.1 kv.2 fun kv' hkv' => hdisj kv (by simp) kv' hkv']
    rw [ih (acc ++ [kv]) hnd'.2 ?_]
    · simp
    · intro kv2 hkv2 kv' hkv'
      rcases List.mem_append.mp hkv' with hmem | hmem
      · exact hdisj kv2 (by simp [hkv2]) kv' hmem
      · obtain rfl : kv' = kv := by simpa using hmem
        intro he
        exact hnd'.1 (he ▸ List.mem_map_of_mem Prod.fst hkv2)

theorem updatedPropLines_eq_render (props : List SProp) (m : PDict) :
    updatedPropLines props m =
      (props.map fun p => (p.ind, p.key, (dget? m p.key).getD p.val)).map
        (fun t => t.1 ++ t.2.1 ++ '=' :: t.2.2 ++ str "\n") := by
  unfold updatedPropLines
  rw [List.map_map]
  refine List.map_congr_left fun p _ => ?_
  cases hget : dget? m p.key <;> simp [hget, mkPropLine, Function.comp]

theorem appendedPropLines_eq_render (headerLine : Line) (props : List SProp) (m : PDict) :
    appendedPropLines headerLine props m =
      ((m.filter fun kv => !((props.map SProp.key).contains kv.1)).map fun kv =>
        (firstPropIndent (headerLine :: props.map mkPropLine), kv.1, kv.2)).map
        (fun t => t.1 ++ t.2.1 ++ '=' :: t.2.2 ++ str "\n") := by
  unfold appendedPropLines
  rw [List.map_map]
  rfl

/-- C2 (amended): parsing the synthesized section yields `new_mapping`'s
value on every key of `new_mapping`, and — contrary to the original claim —
also keeps every key that existed originally but is absent from
`new_mapping`, with its original value: the parse result is exactly the
original keys in order (updated where `new_mapping` provides a value)
followed by the appended new keys. -/
theorem roundtrip_parse_synthesized
    (pre suf : List Line) (headerLine : Line) (props : List SProp) (m : PDict)
    (hd : Str) (ts : List Str)
    (hpre : ∀ l ∈ pre, strip l ≠ hd)
    (hh : strip headerLine = hd)
    (hok : ∀ p ∈ props, p.ok)
    (hnd : (props.map SProp.key).Nodup)
    (hm : MClean m)
    (hbody : ∀ p ∈ props, ts.contains (strip (mkPropLine p)) = false)
    (hsuf : suf = [] ∨ ts.contains (strip suf.headI) = true)
    (hhc : isCB headerLine = true)
    (hout : ∀ l ∈ updatedPropLines props m ++ appendedPropLines headerLine props m,
      ts.contains (strip l) = false) :
    parse_properties_block
        (extract_block
          (FileOps.update_properties_block_preserve_format
            (pre ++ headerLine :: props.map mkPropLine ++ suf) m hd ts)
          hd ts) =
      props.map (fun p => (p.key, (dget? m p.key).getD p.val)) ++
        m.filter (fun kv => !((props.map SProp.key).contains kv.1)) := by
  rw [update_simple_section_shape pre suf headerLine props m hd ts hpre hh hok hnd hm
    hbody hsuf]
  set newbody := updatedPropLines props m ++ appendedPropLines headerLine props m with hnb
  have hfh : findHeader (pre ++ headerLine :: newbody ++ suf) hd = some pre.length := by
    rw [show pre ++ headerLine :: newbody ++ suf =
        pre ++ headerLine :: (newbody ++ suf) by simp]
    exact findHeader_append pre (newbody ++ suf) headerLine hd hpre hh
  have hft : findTerm (pre ++ headerLine :: newbody ++ suf) pre.length ts =
      pre.length + 1 + newbody.length :=
    findTerm_append pre newbody suf headerLine ts hout hsuf
  have harith : pre.length + 1 + newbody.length - pre.length = 1 + newbody.length := by omega
  have hslice := take_section pre newbody suf headerLine
  simp only [extract_block, hfh, hft, harith, hslice]
  have hcons : parse_properties_block (headerLine :: newbody) =
      newbody.foldl parseStep [] := by
    unfold parse_properties_block
    simp only [List.foldl_cons]
    rw [parseStep_comment [] headerLine hhc]
  rw [hcons, hnb, updatedPropLines_eq_render, appendedPropLines_eq_render,
    ← List.map_append]
  have hclean : ∀ t ∈ (props.map fun p => (p.ind, p.key, (dget? m p.key).getD p.val)) ++
      ((m.filter fun kv => !((props.map SProp.key).contains kv.1)).map fun kv =>
        (firstPropIndent (headerLine :: props.map mkPropLine), kv.1, kv.2)),
      (∀ c ∈ t.1, isWS c = true) ∧ t.2.1 ≠ [] ∧
        (∀ c ∈ t.2.1, isWS c = false ∧ c ≠ '=' ∧ c ≠ '#') ∧
        (∀ c ∈ t.2.2, isWS c = false ∧ c ≠ '#') := by
    intro t ht
    rcases List.mem_append.mp ht with hA | hB
    · obtain ⟨p, hp, rfl⟩ := List.mem_map.mp hA
      obtain ⟨hind, hkne, hk, hv, _, _⟩ := hok p hp
      refine ⟨hind, hkne, hk, ?_⟩
      cases hget : dget? m p.key with
      | none => simpa using hv
      | some nv =>
        have hmem : (p.key, nv) ∈ m := dget?_mem hget
        simpa using (hm.2 _ hmem).2.2
    · obtain ⟨kv, hkv, rfl⟩ := List.mem_map.mp hB
      have hkvm : kv ∈ m := (List.mem_filter.mp hkv).1
      obtain ⟨hkne, hk, hv⟩ := hm.2 kv hkvm
      exact ⟨firstPropIndent_ws _, hkne, hk, hv⟩
  rw [parse_rendered _ hclean []]
  rw [← List.foldl_map (fun t : Str × Str × Str => (t.2.1, t.2.2))
    (fun acc kv => dset acc kv.1 kv.2)]
  have hpairs : ((props.map fun p => (p.ind, p.key, (dget? m p.key).getD p.val)) ++
      ((m.filter fun kv => !((props.map SProp.key).contains kv.1)).map fun kv =>
        (firstPropIndent (headerLine :: props.map mkPropLine), kv.1, kv.2))).map
        (fun t : Str × Str × Str => (t.2.1, t.2.2)) =
      props.map (fun p => (p.key, (dget? m p.key).getD p.val)) ++
        m.filter (fun kv => !((props.map SProp.key).contains kv.1)) := by
    rw [List.map_append, List.map_map, List.map_map]
    congr 1
    exact List.map_id' _
  rw [hpairs]
  have hfkeys : ((m.filter fun kv => !((props.map SProp.key).contains kv.1)).map
      Prod.fst).Nodup :=
    hm.1.sublist ((List.filter_sublist m).map Prod.fst)
  have hdisj : (props.map SProp.key).Disjoint
      ((m.filter fun kv => !((props.map SProp.key).contains kv.1)).map Prod.fst) := by
    intro a ha hb
    obtain ⟨kv, hkv, rfl⟩ := List.mem_map.mp hb
    have hpred := (List.mem_filter.mp hkv).2
    have : (props.map SProp.key).contains kv.1 = false := by
      cases hc : (props.map SProp.key).contains kv.1 with
      | false => rfl
      | true => rw [hc] at hpred; exact absurd hpred (by simp)
    exact not_mem_of_contains_false this ha
  rw [foldl_dset_nodup _ [] ?_ (by simp)]
  · simp
  · rw [List.map_append, List.map_map]
    rw [List.nodup_append]
    refine ⟨by simpa using hnd, hfkeys, ?_⟩
    intro a ha hb
    exact hdisj (by simpa using ha) hb

/-- C2 (witness): the amended round trip computed on Scenario A. -/
theorem roundtrip_parse_synthesized_witness :
    parse_properties_block
        (extract_block
          (FileOps.update_properties_block_preserve_format
            ([] ++ (str "# LMKD property\n") ::
              [⟨[], str "a", str "1"⟩, ⟨[], str "b", str "2"⟩].map mkPropLine ++
              [str "# Chimera property\n"])
            [(str "a", str "5")] lmkdHeader lmkdTerms)
          lmkdHeader lmkdTerms) =
      ([⟨[], str "a", str "1"⟩, ⟨[], str "b", str "2"⟩] : List SProp).map
          (fun p => (p.key, (dget? [(str "a", str "5")] p.key).getD p.val)) ++
        [(str "a", str "5")].filter
          (fun kv =>
            !((([⟨[], str "a", str "1"⟩, ⟨[], str "b", str "2"⟩] : List SProp).map
              SProp.key).contains kv.1)) :=
  roundtrip_parse_synthesized [] [str "# Chimera property\n"] (str "# LMKD property\n")
    [⟨[], str "a", str "1"⟩, ⟨[], str "b", str "2"⟩] [(str "a", str "5")]
    lmkdHeader lmkdTerms (by decide) (by decide) (by decide) (by decide) (by decide)
    (by decide) (Or.inr (by decide)) (by decide) (by decide)

/-! ### C2: the round trip retains the keys the claim calls deleted -/

/-- C2 (counterexample): parsing the synthesized Scenario-A section yields
`{a: "5", b: "2"}` — the key `b`, present originally and absent from
`new_mapping`, survives the round trip, contradicting the claimed omission
of deleted keys. -/
theorem roundtrip_retains_deleted_key :
    parse_properties_block
        (extract_block
          (FileOps.update_properties_block_preserve_format scenarioA
            [(str "a", str "5")] lmkdHeader lmkdTerms)
          lmkdHeader lmkdTerms) =
      [(str "a", str "5"), (str "b", str "2")] := by
  decide

/-! ### C3: continuation correctness holds for the tuning variant but the
file_operations variant leaves a dangling backslash -/

/-- C3: with `new_mapping = {q: "7"}` on Scenario C, the
`file_operations` variant rewrites the last group member as `q=7 \`
(2 backslash-terminated lines for a 2-key group), while the
`tuning_process` "FIXED VERSION" produces the claimed shape; on the spec's
Scenario C (adding `r=3`) the tuning variant moves the backslash as the
claim states. -/
theorem override_last_line_backslash_eval :
    FileOps.update_properties_block_preserve_format scenarioC
        [(str "q", str "7")] lmkdHeader lmkdTerms =
      [str "# LMKD property\n", str "PRODUCT_PROPERTY_OVERRIDES += \\\n",
       str "    p=1 \\\n", str "    q=7 \\\n", str "# Chimera property\n"] ∧
    TuningProc.update_properties_block_preserve_format scenarioC
        [(str "q", str "7")] lmkdHeader lmkdTerms =
      [str "# LMKD property\n", str "PRODUCT_PROPERTY_OVERRIDES += \\\n",
       str "    p=1 \\\n", str "    q=7\n", str "# Chimera property\n"] ∧
    TuningProc.update_properties_block_preserve_format scenarioC
        [(str "p", str "1"), (str "q", str "2"), (str "r", str "3")] lmkdHeader lmkdTerms =
      [str "# LMKD property\n", str "PRODUCT_PROPERTY_OVERRIDES += \\\n",
       str "    p=1 \\\n", str "    q=2 \\\n", str "    r=3\n", str "# Chimera property\n"] := by
  decide

/-! ### C4: the parser performs no continuation handling -/

/-- C4 (counterexample): parsing Scenario C's override group stores the
value `1 \` for `p` — the trailing continuation backslash is NOT stripped —
and the introducer line contributes the key `PRODUCT_PROPERTY_OVERRIDES +`. -/
theorem parse_member_keeps_backslash_cex :
    parse_properties_block
        [str "PRODUCT_PROPERTY_OVERRIDES += \\\n", str "    p=1 \\\n", str "    q=2\n"] =
      [(str "PRODUCT_PROPERTY_OVERRIDES +", str "\\"), (str "p", str "1 \\"), (str "q", str "2")] ∧
    endsWith (str "\\") (str "1 \\") = true ∧
    dmem (parse_properties_block
        [str "PRODUCT_PROPERTY_OVERRIDES += \\\n", str "    p=1 \\\n", str "    q=2\n"])
      (str "PRODUCT_PROPERTY_OVERRIDES +") = true := by
  decide

/-! ### Comment and blank-line preservation in the file_operations rewrite -/

theorem isCB_ws_append (ind rest : Str) (hind : ∀ c ∈ ind, isWS c = true) :
    isCB (ind ++ rest) = isCB rest := by
  unfold isCB strip
  rw [lstrip_ws_append _ _ hind]

theorem isCB_cons_false (c : Char) (t : Str) (hc : isWS c = false) (hh : c ≠ '#') :
    isCB (c :: t) = false := by
  unfold isCB
  obtain ⟨t', ht'⟩ := rstrip_cons_head c t hc
  have hs : strip (c :: t) = c :: t' := by
    unfold strip
    rw [lstrip_cons_not_ws c t hc, ht']
  rw [hs]
  simp only [List.isEmpty_cons, Bool.false_or]
  exact startsWith_hash_cons c t' hh

theorem isCB_built_false (ind key rest : Str)
    (hind : ∀ c ∈ ind, isWS c = true)
    (hkey : key = [] ∨ ∃ c t, key = c :: t ∧ isWS c = false ∧ c ≠ '#') :
    isCB (ind ++ key ++ '=' :: rest) = false := by
  rcases hkey with rfl | ⟨c, t, rfl, hc, hh⟩
  · rw [show ind ++ [] ++ '=' :: rest = ind ++ '=' :: rest by simp]
    rw [isCB_ws_append _ _ hind]
    exact isCB_cons_false '=' rest rfl (by decide)
  · rw [show ind ++ (c :: t) ++ '=' :: rest = ind ++ (c :: (t ++ '=' :: rest)) by simp]
    rw [isCB_ws_append _ _ hind]
    exact isCB_cons_false c _ hc hh

theorem isCB_built_false' (ind key nv tail : Str)
    (hind : ∀ c ∈ ind, isWS c = true)
    (hkey : key = [] ∨ ∃ c t, key = c :: t ∧ isWS c = false ∧ c ≠ '#') :
    isCB (ind ++ key ++ [ '=' ] ++ nv ++ tail) = false := by
  have := isCB_built_false ind key (nv ++ tail) hind hkey
  simpa [List.append_assoc, List.singleton_append] using this

theorem isCB_built_false2 (ind key nv tc tail : Str)
    (hind : ∀ c ∈ ind, isWS c = true)
    (hkey : key = [] ∨ ∃ c t, key = c :: t ∧ isWS c = false ∧ c ≠ '#') :
    isCB (ind ++ key ++ [ '=' ] ++ nv ++ tc ++ tail) = false := by
  have := isCB_built_false ind key (nv ++ (tc ++ tail)) hind hkey
  simpa [List.append_assoc, List.singleton_append] using this

theorem stripped_shape_of_not_cb (l : Line) (h : isCB l = false) :
    ∃ c t, strip l = c :: t ∧ isWS c = false ∧ c ≠ '#' := by
  rcases strip_head_non_ws l with he | ⟨c, t, hct, hc⟩
  · unfold isCB at h
    rw [he] at h
    simp at h
  · refine ⟨c, t, hct, hc, ?_⟩
    intro hceq
    subst hceq
    unfold isCB at h
    rw [hct] at h
    have : startsWith (str "#") ('#' :: t) = true := by
      have hstr : str "#" = ['#'] := rfl
      simp [startsWith, hstr, List.isPrefixOf]
    rw [this] at h
    simp at h

/-- The key half produced by `split("=", 1)` followed by `strip` on a
non-comment line is empty or starts with the line's first (non-whitespace,
non-`#`) character. -/
theorem splitKey_shape (s : Str)
    (hs : s = [] ∨ ∃ c t, s = c :: t ∧ isWS c = false ∧ c ≠ '#') :
    strip (splitOnce '=' s).1 = [] ∨
      ∃ c t, strip (splitOnce '=' s).1 = c :: t ∧ isWS c = false ∧ c ≠ '#' := by
  rcases hs with rfl | ⟨c, t, rfl, hc, hh⟩
  · left; rfl
  · by_cases hce : (c == '=') = true
    · left
      simp [splitOnce, hce]
      rfl
    · have hce' : (c == '=') = false := by simpa using hce
      simp only [splitOnce, hce', Bool.false_eq_true, if_false]
      have hl : lstrip (c :: (splitOnce '=' t).1) = c :: (splitOnce '=' t).1 :=
        lstrip_cons_not_ws _ _ hc
      obtain ⟨t', ht'⟩ := rstrip_cons_head c (splitOnce '=' t).1 hc
      right
      refine ⟨c, t', ?_, hc, hh⟩
      unfold strip
      rw [hl, ht']

/-- `strip` of `dropLast` of a `c`-headed stripped line is empty or still
`c`-headed. -/
theorem strip_dropLast_shape (c : Char) (t : Str) (hc : isWS c = false) :
    strip (c :: t).dropLast = [] ∨
      ∃ t', strip (c :: t).dropLast = c :: t' := by
  cases t with
  | nil => left; rfl
  | cons x t0 =>
    right
    have hdl : (c :: x :: t0).dropLast = c :: (x :: t0).dropLast := rfl
    rw [hdl]
    have hl := lstrip_cons_not_ws c (x :: t0).dropLast hc
    obtain ⟨t', ht'⟩ := rstrip_cons_head c (x :: t0).dropLast hc
    refine ⟨t', ?_⟩
    unfold strip
    rw [hl, ht']

theorem leadingWS_all_ws (l : Line) : ∀ c ∈ leadingWS l, isWS c = true := by
  intro c hc
  exact List.mem_takeWhile_imp hc

theorem renderOverrideItems_not_cb (indent : Str) (items : PDict)
    (hind : ∀ c ∈ indent, isWS c = true)
    (hitems : ∀ kv ∈ items, kv.1 = [] ∨
      ∃ c t, kv.1 = c :: t ∧ isWS c = false ∧ c ≠ '#') :
    ∀ l ∈ renderOverrideItems indent items, isCB l = false := by
  induction items with
  | nil => simp [renderOverrideItems]
  | cons kv rest ih =>
    intro l hl
    cases rest with
    | nil =>
      obtain ⟨k, v⟩ := kv
      simp only [renderOverrideItems, List.mem_singleton] at hl
      subst hl
      have := isCB_built_false indent k (v ++ str "\n") hind (by simpa using hitems (k, v) (by simp))
      simpa using this
    | cons kv2 rest2 =>
      obtain ⟨k, v⟩ := kv
      have hEq : renderOverrideItems indent ((k, v) :: kv2 :: rest2) =
          (indent ++ k ++ [ '=' ] ++ v ++ str " \\\n") ::
            renderOverrideItems indent (kv2 :: rest2) := rfl
      rw [hEq] at hl
      rcases List.mem_cons.mp hl with rfl | hl2
      · have := isCB_built_false indent k (v ++ str " \\\n") hind
          (by simpa using hitems (k, v) (by simp))
        simpa [List.append_assoc] using this
      · exact ih (fun kv' hkv' => hitems kv' (by simp [hkv'])) l hl2

/-- The `file_operations` rewrite loop replays every comment and blank line
of its input unchanged and in order: filtering the emitted lines to
comments/blanks gives exactly the comment/blank lines of the input, in any
mode and for any mapping with well-formed keys. -/
theorem processLoop_comments (lines : List Line) :
    ∀ (mode : FileOps.Mode) (m : PDict) (li cl : Nat), MKeysOk m →
      (FileOps.processLoop lines mode m li cl).1.filter isCB = lines.filter isCB := by
  induction lines with
  | nil => intro mode m li cl _; rfl
  | cons line rest ih =>
    intro mode m li cl hm
    have hmder : ∀ k, MKeysOk (derase m k) := fun k kv hkv =>
      hm kv ((derase_sublist m k).mem hkv)
    have hmfil : ∀ p, MKeysOk (m.filter p) := fun p kv hkv =>
      hm kv (List.mem_filter.mp hkv).1
    by_cases hcb : isCB line = true
    · have hcb' : ((strip line).isEmpty || startsWith (str "#") (strip line)) = true := hcb
      simp only [FileOps.processLoop, hcb', if_true]
      simp only [List.filter_cons, hcb, if_true]
      rw [ih mode m li (cl + 1) hm]
    · have hcbf : isCB line = false := by simpa using hcb
      have hcb' : ((strip line).isEmpty || startsWith (str "#") (strip line)) = false := hcbf
      obtain ⟨c0, t0, hct, hc0, hh0⟩ := stripped_shape_of_not_cb line hcbf
      have hfl : (line :: rest).filter isCB = rest.filter isCB := by
        simp [List.filter_cons, hcbf]
      simp only [FileOps.processLoop, hcb', Bool.false_eq_true, if_false]
      cases mode with
      | regular =>
        by_cases hov : (containsSub ovs (strip line) && containsSub (str "+=") (strip line)) = true
        · simp only [hov, if_true]
          rw [hfl]
          simp only [List.filter_cons, hcbf, Bool.false_eq_true, if_false]
          exact ih _ m li (cl + 1) hm
        · have hov' : (containsSub ovs (strip line) &&
              containsSub (str "+=") (strip line)) = false := by simpa using hov
          simp only [hov', Bool.false_eq_true, if_false]
          by_cases heq : ((strip line).contains '=' && !containsSub ovs (strip line)) = true
          · simp only [heq, if_true]
            have hkey := splitKey_shape (strip line) (Or.inr ⟨c0, t0, hct, hc0, hh0⟩)
            cases hget : dget? m (strip (splitOnce '=' (strip line)).1) with
            | some nv =>
              simp only [hget]
              rw [hfl]
              simp only [List.filter_cons]
              rw [isCB_built_false2 (leadingWS line) (strip (splitOnce '=' (strip line)).1)
                nv _ _ (leadingWS_all_ws line) hkey]
              simp only [Bool.false_eq_true, if_false]
              exact ih _ _ (cl + 1) (cl + 1) (hmder _)
            | none =>
              simp only [hget]
              rw [hfl]
              simp only [List.filter_cons, hcbf, Bool.false_eq_true, if_false]
              exact ih _ m (cl + 1) (cl + 1) hm
          · have heq' : ((strip line).contains '=' && !containsSub ovs (strip line)) = false := by
              simpa using heq
            simp only [heq', Bool.false_eq_true, if_false]
            rw [hfl]
            simp only [List.filter_cons, hcbf, Bool.false_eq_true, if_false]
            exact ih _ m li (cl + 1) hm
      | inOverride cur =>
        by_cases hb1 : ((strip line).contains '=' && endsWith (str "\\") (strip line)) = true
        · simp only [hb1, if_true]
          by_cases hpc : (strip (strip line).dropLast).contains '=' = true
          · simp only [hpc, if_true]
            have hkey := splitKey_shape (strip (strip line).dropLast)
              (by
                rcases strip_dropLast_shape c0 t0 hc0 with he | ⟨t', ht'⟩
                · rw [hct]
                  exact Or.inl he
                · rw [hct]
                  exact Or.inr ⟨c0, t', ht', hc0, hh0⟩)
            cases hget : dget? m (strip (splitOnce '=' (strip (strip line).dropLast)).1) with
            | some nv =>
              simp only [hget]
              rw [hfl]
              simp only [List.filter_cons]
              rw [isCB_built_false' (leadingWS line)
                (strip (splitOnce '=' (strip (strip line).dropLast)).1) nv _
                (leadingWS_all_ws line) hkey]
              simp only [Bool.false_eq_true, if_false]
              exact ih _ _ li (cl + 1) (hmder _)
            | none =>
              simp only [hget]
              rw [hfl]
              simp only [List.filter_cons, hcbf, Bool.false_eq_true, if_false]
              exact ih _ m li (cl + 1) hm
          · have hpc' : (strip (strip line).dropLast).contains '=' = false := by
              simpa using hpc
            simp only [hpc', Bool.false_eq_true, if_false]
            rw [hfl]
            simp only [List.filter_cons, hcbf, Bool.false_eq_true, if_false]
            exact ih _ m li (cl + 1) hm
        · have hb1' : ((strip line).contains '=' && endsWith (str "\\") (strip line)) = false := by
            simpa using hb1
          simp only [hb1', Bool.false_eq_true, if_false]
          by_cases hb2 : (strip line).contains '=' = true
          · simp only [hb2, if_true]
            have hkey := splitKey_shape (strip line) (Or.inr ⟨c0, t0, hct, hc0, hh0⟩)
            rw [hfl]
            cases hget : dget? m (strip (splitOnce '=' (strip line)).1) with
            | some nv =>
              simp only [hget]
              rw [List.filter_append, List.filter_append]
              rw [List.filter_eq_nil_iff.mpr (fun l hl => by
                obtain rfl := List.mem_singleton.mp hl
                split
                · have := isCB_built_false (leadingWS line)
                    (strip (splitOnce '=' (strip line)).1) (nv ++ str " \\\n")
                    (leadingWS_all_ws line) hkey
                  simpa [List.append_assoc, List.singleton_append] using this
                · have := isCB_built_false (leadingWS line)
                    (strip (splitOnce '=' (strip line)).1) (nv ++ str "\n")
                    (leadingWS_all_ws line) hkey
                  simpa [List.append_assoc, List.singleton_append] using this)]
              rw [List.filter_eq_nil_iff.mpr (fun l hl => by
                rw [renderOverrideItems_not_cb (leadingWS line) _ (leadingWS_all_ws line)
                  (fun kv hkv => hmder _ kv (List.mem_filter.mp hkv).1) l hl]
                simp)]
              simp only [List.nil_append]
              exact ih _ _ li _ (fun kv hkv => hmder _ kv (List.mem_filter.mp hkv).1)
            | none =>
              simp only [hget]
              split
              · rw [List.filter_append, List.filter_append]
                rw [List.filter_eq_nil_iff.mpr (fun l hl => by
                  obtain rfl := List.mem_singleton.mp hl
                  have := isCB_built_false (leadingWS line)
                    (strip (splitOnce '=' (strip line)).1)
                    (strip (splitOnce '=' (strip line)).2 ++ str " \\\n")
                    (leadingWS_all_ws line) hkey
                  simpa [List.append_assoc, List.singleton_append] using this)]
                rw [List.filter_eq_nil_iff.mpr (fun l hl => by
                  rw [renderOverrideItems_not_cb (leadingWS line) _ (leadingWS_all_ws line)
                    (fun kv hkv => hm kv (List.mem_filter.mp hkv).1) l hl]
                  simp)]
                simp only [List.nil_append]
                exact ih _ _ li _ (fun kv hkv => hm kv (List.mem_filter.mp hkv).1)
              · rw [List.filter_append, List.filter_append]
                rw [List.filter_eq_nil_iff.mpr (fun l hl => by
                  obtain rfl := List.mem_singleton.mp hl
                  simp [hcbf])]
                rw [List.filter_eq_nil_iff.mpr (fun l hl => by
                  rw [renderOverrideItems_not_cb (leadingWS line) _ (leadingWS_all_ws line)
                    (fun kv hkv => hm kv (List.mem_filter.mp hkv).1) l hl]
                  simp)]
                simp only [List.nil_append]
                exact ih _ _ li _ (fun kv hkv => hm kv (List.mem_filter.mp hkv).1)
          · have hb2' : (strip line).contains '=' = false := by simpa using hb2
            simp only [hb2', Bool.false_eq_true, if_false]
            rw [hfl]
            simp only [List.filter_cons, hcbf, Bool.false_eq_true, if_false]
            exact ih _ m li (cl + 1) hm

/-! ### C5: the tuning variant drops comments inside override groups -/

/-- C5 (counterexample): on a section whose override group contains the
comment line `    # note`, the `tuning_process` variant of
`update_properties_block_preserve_format` removes that comment from the
output, so the claimed comment preservation fails for it. -/
theorem tuning_drops_override_comment :
    TuningProc.update_properties_block_preserve_format scenarioD
        [(str "q", str "7")] lmkdHeader lmkdTerms =
      [str "# LMKD property\n", str "PRODUCT_PROPERTY_OVERRIDES += \\\n",
       str "    p=1 \\\n", str "    q=7\n", str "tail=9\n", str "# Chimera property\n"] ∧
    str "    # note\n" ∈ scenarioD ∧
    str "    # note\n" ∉
      TuningProc.update_properties_block_preserve_format scenarioD
        [(str "q", str "7")] lmkdHeader lmkdTerms := by
  decide

/-- Every entry of the final `remaining_properties` dictionary of the
rewrite loop was an entry of the initial dictionary: the loop only deletes
and filters, never inserts. -/
theorem processLoop_dict_sub (lines : List Line) :
    ∀ (mode : FileOps.Mode) (m : PDict) (li cl : Nat) kv,
      kv ∈ (FileOps.processLoop lines mode m li cl).2.1 → kv ∈ m := by
  induction lines with
  | nil => intro mode m li cl kv h; exact h
  | cons line rest ih =>
    intro mode m li cl kv h
    by_cases hcb : ((strip line).isEmpty || startsWith (str "#") (strip line)) = true
    · simp only [FileOps.processLoop, hcb, if_true] at h
      exact ih mode m li (cl + 1) kv h
    · have hcb' : ((strip line).isEmpty || startsWith (str "#") (strip line)) = false := by
        simpa using hcb
      simp only [FileOps.processLoop, hcb', Bool.false_eq_true, if_false] at h
      cases mode with
      | regular =>
        by_cases hov : (containsSub ovs (strip line) && containsSub (str "+=") (strip line)) = true
        · simp only [hov, if_true] at h
          exact ih _ m li (cl + 1) kv h
        · have hov' : (containsSub ovs (strip line) &&
              containsSub (str "+=") (strip line)) = false := by simpa using hov
          simp only [hov', Bool.false_eq_true, if_false] at h
          by_cases heq : ((strip line).contains '=' && !containsSub ovs (strip line)) = true
          · simp only [heq, if_true] at h
            cases hget : dget? m (strip (splitOnce '=' (strip line)).1) with
            | some nv =>
              simp only [hget] at h
              exact (derase_sublist m _).mem (ih _ _ (cl + 1) (cl + 1) kv h)
            | none =>
              simp only [hget] at h
              exact ih _ m (cl + 1) (cl + 1) kv h
          · have heq' : ((strip line).contains '=' && !containsSub ovs (strip line)) = false := by
              simpa using heq
            simp only [heq', Bool.false_eq_true, if_false] at h
            exact ih _ m li (cl + 1) kv h
      | inOverride cur =>
        by_cases hb1 : ((strip line).contains '=' && endsWith (str "\\") (strip line)) = true
        · simp only [hb1, if_true] at h
          by_cases hpc : (strip (strip line).dropLast).contains '=' = true
          · simp only [hpc, if_true] at h
            cases hget : dget? m (strip (splitOnce '=' (strip (strip line).dropLast)).1) with
            | some nv =>
              simp only [hget] at h
              exact (derase_sublist m _).mem (ih _ _ li (cl + 1) kv h)
            | none =>
              simp only [hget] at h
              exact ih _ m li (cl + 1) kv h
          · have hpc' : (strip (strip line).dropLast).contains '=' = false := by simpa using hpc
            simp only [hpc', Bool.false_eq_true, if_false] at h
            exact ih _ m li (cl + 1) kv h
        · have hb1' : ((strip line).contains '=' && endsWith (str "\\") (strip line)) = false := by
            simpa using hb1
          simp only [hb1', Bool.false_eq_true, if_false] at h
          by_cases hb2 : (strip line).contains '=' = true
          · simp only [hb2, if_true] at h
            cases hget : dget? m (strip (splitOnce '=' (strip line)).1) with
            | some nv =>
              simp only [hget] at h
              exact (derase_sublist m _).mem (List.mem_filter.mp (ih _ _ li _ kv h)).1
            | none =>
              simp only [hget] at h
              split at h
              · exact (List.mem_filter.mp (ih _ _ li _ kv h)).1
              · exact (List.mem_filter.mp (ih _ _ li _ kv h)).1
          · have hb2' : (strip line).contains '=' = false := by simpa using hb2
            simp only [hb2', Bool.false_eq_true, if_false] at h
            exact ih _ m li (cl + 1) kv h

/-- C5 (amended, the `file_operations` variant): on a line sequence
containing the located section, `update_properties_block_preserve_format`
replays every comment line and every blank line of the original section —
including those inside an override group — unchanged and in their original
order relative to the other lines: filtering the rewritten section to
comment/blank lines gives exactly the comment/blank lines of the original
section.  (The tuning_process variant does NOT have this property: see the
counterexample.)  Keys of `new_mapping` are assumed well formed: empty or
starting with a non-whitespace, non-`#` character. -/
theorem fileops_preserves_comments
    (pre body suf : List Line) (headerLine : Line) (m : PDict)
    (hd : Str) (ts : List Str)
    (hpre : ∀ l ∈ pre, strip l ≠ hd)
    (hh : strip headerLine = hd)
    (hm : MKeysOk m)
    (hbody : ∀ l ∈ body, ts.contains (strip l) = false)
    (hsuf : suf = [] ∨ ts.contains (strip suf.headI) = true) :
    ∃ mid : List Line,
      FileOps.update_properties_block_preserve_format
          (pre ++ headerLine :: body ++ suf) m hd ts = pre ++ mid ++ suf ∧
      mid.filter isCB = (headerLine :: body).filter isCB := by
  have hfh : findHeader (pre ++ headerLine :: body ++ suf) hd = some pre.length := by
    rw [show pre ++ headerLine :: body ++ suf = pre ++ headerLine :: (body ++ suf) by simp]
    exact findHeader_append pre (body ++ suf) headerLine hd hpre hh
  have hft : findTerm (pre ++ headerLine :: body ++ suf) pre.length ts =
      pre.length + 1 + body.length := findTerm_append pre body suf headerLine ts hbody hsuf
  have harith : pre.length + 1 + body.length - pre.length = 1 + body.length := by omega
  have hslice : ((pre ++ headerLine :: body ++ suf).drop pre.length).take (1 + body.length) =
      headerLine :: body := take_section pre body suf headerLine
  have hdrop : (pre ++ headerLine :: body ++ suf).drop (pre.length + 1 + body.length) = suf :=
    drop_section pre body suf headerLine
  have htake : (pre ++ headerLine :: body ++ suf).take pre.length = pre := by
    rw [show pre ++ headerLine :: body ++ suf = pre ++ (headerLine :: body ++ suf) by simp]
    exact List.take_left pre _
  have hcm := processLoop_comments body FileOps.Mode.regular m 1 1 hm
  simp only [FileOps.update_properties_block_preserve_format, hfh, hft, harith, hslice,
    List.headI_cons, List.tail_cons, hdrop, htake]
  refine ⟨_, rfl, ?_⟩
  by_cases hre : (FileOps.processLoop body FileOps.Mode.regular m 1 1).2.1.isEmpty = true
  · simp only [hre, if_true, List.filter_cons, hcm]
  · have hre' : (FileOps.processLoop body FileOps.Mode.regular m 1 1).2.1.isEmpty = false := by
      simpa using hre
    simp only [hre', Bool.false_eq_true, if_false]
    have hmapnil : List.filter isCB
        (List.map (fun kv => firstPropIndent (headerLine :: body) ++ kv.1 ++
            [ '=' ] ++ kv.2 ++ str "\n")
          (FileOps.processLoop body FileOps.Mode.regular m 1 1).2.1) = [] :=
      List.filter_eq_nil_iff.mpr (fun l hl => by
        obtain ⟨kv, hkv, rfl⟩ := List.mem_map.mp hl
        have hkvm : kv ∈ m := processLoop_dict_sub body _ m 1 1 kv hkv
        have := isCB_built_false (firstPropIndent (headerLine :: body)) kv.1
          (kv.2 ++ str "\n") (firstPropIndent_ws _) (hm kv hkvm)
        simpa [List.append_assoc, List.singleton_append] using this)
    rw [List.filter_append, List.filter_append, hmapnil, List.append_nil,
      ← List.filter_append, List.take_append_drop]
    simp only [List.filter_cons, hcm]

/-- C5 (witness): the preservation theorem applied to a section whose
override group contains the comment line `    # note` and a blank line,
with `new_mapping = {q: "7"}`. -/
theorem fileops_preserves_comments_witness :
    ∃ mid : List Line,
      FileOps.update_properties_block_preserve_format
          ([str "x=0\n"] ++ (str "# LMKD property\n") ::
            [str "PRODUCT_PROPERTY_OVERRIDES += \\\n", str "    p=1 \\\n",
             str "    # note\n", str "\n", str "    q=2\n", str "tail=9\n"] ++
            [str "# Chimera property\n"])
          [(str "q", str "7")] lmkdHeader lmkdTerms =
        [str "x=0\n"] ++ mid ++ [str "# Chimera property\n"] ∧
      mid.filter isCB = ((str "# LMKD property\n") ::
        [str "PRODUCT_PROPERTY_OVERRIDES += \\\n", str "    p=1 \\\n",
         str "    # note\n", str "\n", str "    q=2\n", str "tail=9\n"]).filter isCB :=
  fileops_preserves_comments [str "x=0\n"]
    [str "PRODUCT_PROPERTY_OVERRIDES += \\\n", str "    p=1 \\\n",
     str "    # note\n", str "\n", str "    q=2\n", str "tail=9\n"]
    [str "# Chimera property\n"] (str "# LMKD property\n")
    [(str "q", str "7")] lmkdHeader lmkdTerms
    (by decide) (by decide)
    (fun kv hkv => by
      obtain rfl := List.mem_singleton.mp hkv
      exact Or.inr ⟨'q', [], rfl, rfl, by decide⟩)
    (by decide) (Or.inr (by decide))

/-! ### C10: totality of the file-reading helpers -/

/-- C10: `validate_properties_exist` returns `(False, False)` on a failed
read and `extract_properties_from_file` returns `None` on a failed read;
moreover `extract_properties_from_file` never returns a dictionary whose
LMKD and Chimera mappings are both empty — whenever both parsed mappings
are empty it returns `None`.  (In the embedding both functions are total;
the Python `try/except` wrappers are modelled by the `none` content.) -/
theorem file_readers_total :
    validate_properties_exist none = (false, false) ∧
    extract_properties_from_file none = none ∧
    (∀ content props, extract_properties_from_file content = some props →
      props.1 = [] → props.2 = [] → False) ∧
    (∀ lines,
      (let b0 := extract_block lines (str "# LMKD property")
          [str "# Chimera property", str "# DHA property"]
       let b := if b0.isEmpty then
          extract_block lines (str "# DHA property") [str "# Chimera property"] else b0
       (if b.isEmpty then ([] : PDict) else parse_properties_block b) = []) →
      (let cb := extract_block lines (str "# Chimera property")
          [str "# Nandswap", str "#", str ""]
       (if cb.isEmpty then ([] : PDict) else parse_properties_block cb) = []) →
      extract_properties_from_file (some lines) = none) := by
  refine ⟨rfl, rfl, ?_, ?_⟩
  · intro content props h h1 h2
    match content with
    | none => simp [extract_properties_from_file] at h
    | some lines =>
      simp only [extract_properties_from_file] at h
      repeat' split at h
      all_goals
        first
          | exact Option.noConfusion h
          | (obtain rfl := (Option.some.injEq _ _).mp h; simp_all)
  · intro lines h1 h2
    simp only [extract_properties_from_file]
    simp only at h1 h2
    rw [h1, h2]
    rfl

/-- C10 (witness): on a file containing no property headers both parsed
mappings are empty and the extractor returns `None`, via the theorem. -/
theorem file_readers_total_witness :
    extract_properties_from_file (some [str "x=1\n"]) = none :=
  file_readers_total.2.2.2 [str "x=1\n"] (by decide) (by decide)

/-! ### Trace combinator lemmas for the workflow drivers -/

theorem freeOf_epure {α : Type} (p : Event → Bool) (x : α) : FreeOf p (epure x) := rfl

theorem freeOf_ecall {α : Type} (p : Event → Bool) (r : Except Str α) : FreeOf p (ecall r) := rfl

theorem freeOf_emit (p : Event → Bool) (e : Event) (h : p e = false) : FreeOf p (emit e) := by
  simp [FreeOf, emit, h]

theorem freeOf_emits (p : Event → Bool) (es : List Event) (h : es.filter p = []) :
    FreeOf p (emits es) := h

theorem freeOf_ebind {α β : Type} (p : Event → Bool) (a : ERes α) (f : α → ERes β)
    (ha : FreeOf p a) (hf : ∀ x, FreeOf p (f x)) : FreeOf p (ebind a f) := by
  obtain ⟨evs, r⟩ := a
  cases r with
  | ok x =>
    have ha' : evs.filter p = [] := ha
    have hb' : (f x).1.filter p = [] := hf x
    show (evs ++ (f x).1).filter p = []
    rw [List.filter_append, ha', hb']
    rfl
  | error e => exact ha

theorem freeOf_ite (p : Event → Bool) {α : Type} (c : Bool) (a b : ERes α)
    (ha : FreeOf p a) (hb : FreeOf p b) : FreeOf p (if c then a else b) := by
  cases c
  · exact hb
  · exact ha

theorem errCount_append (s t : List Event) : errCount (s ++ t) = errCount s + errCount t := by
  simp [errCount, List.filter_append]

theorem errCount_eq_zero {t : List Event} (h : t.filter isErr = []) : errCount t = 0 := by
  simp [errCount, h]

theorem errLeOne_of_free {α : Type} (a : ERes α) (h : FreeOf isErr a) : ErrLeOne a :=
  ⟨by rw [errCount_eq_zero h]; omega, fun _ _ => errCount_eq_zero h⟩

theorem errLeOne_ok {α : Type} (es : List Event) (x : α) (h : errCount es ≤ 1) :
    ErrLeOne (es, Except.ok x) :=
  ⟨h, fun _ h' => nomatch h'⟩

theorem errLeOne_ebind {α β : Type} (a : ERes α) (f : α → ERes β)
    (ha : FreeOf isErr a) (hf : ∀ x, ErrLeOne (f x)) : ErrLeOne (ebind a f) := by
  obtain ⟨evs, r⟩ := a
  have ha' : evs.filter isErr = [] := ha
  cases r with
  | ok x =>
    obtain ⟨h1, h2⟩ := hf x
    constructor
    · show errCount (evs ++ (f x).1) ≤ 1
      rw [errCount_append, errCount_eq_zero ha']
      simpa using h1
    · intro e he
      have he' : (f x).2 = Except.error e := he
      show errCount (evs ++ (f x).1) = 0
      rw [errCount_append, errCount_eq_zero ha', h2 e he']
  | error e =>
    constructor
    · show errCount evs ≤ 1
      rw [errCount_eq_zero ha']
      omega
    · intro e' _
      exact errCount_eq_zero ha'

theorem errLeOne_ebind_final {α β : Type} (a : ERes α) (f : α → ERes β)
    (ha : ErrLeOne a) (hf : ∀ x, FreeOf isErr (f x) ∧ ∃ y, (f x).2 = Except.ok y) :
    ErrLeOne (ebind a f) := by
  obtain ⟨evs, r⟩ := a
  obtain ⟨h1, h2⟩ := ha
  cases r with
  | ok x =>
    obtain ⟨hfree, y, hok⟩ := hf x
    constructor
    · show errCount (evs ++ (f x).1) ≤ 1
      rw [errCount_append, errCount_eq_zero hfree]
      simpa using h1
    · intro e he
      have he' : (f x).2 = Except.error e := he
      rw [hok] at he'
      exact absurd he' (by simp)
  | error e =>
    exact ⟨h1, fun e' _ => h2 e rfl⟩

/-! ### The individual operations emit no error events -/

theorem targetCheck1_free (p : Event → Bool) (hlog : ∀ m, p (Event.log m) = false)
    (o : POracle) (name path : Str) : (targetCheck1 o name path).1.filter p = [] := by
  unfold targetCheck1
  split
  · split <;> simp [hlog]
  · simp [hlog]

theorem targetChecks_free (p : Event → Bool) (hlog : ∀ m, p (Event.log m) = false)
    (o : POracle) (beni flumen : Str) : (targetChecks o beni flumen).1.filter p = [] := by
  show ((targetCheck1 o (str "BENI") beni).1 ++ (targetCheck1 o (str "FLUMEN") flumen).1).filter
      p = []
  rw [List.filter_append, targetCheck1_free p hlog o _ _, targetCheck1_free p hlog o _ _]
  rfl

theorem create_changelist_free (p : Event → Bool) (hlog : ∀ m, p (Event.log m) = false)
    (o : POracle) : FreeOf p (create_changelist o) := by
  unfold create_changelist
  refine freeOf_ebind p _ _ (freeOf_emit p _ (hlog _)) ?_
  intro x
  dsimp only
  split
  · simp [FreeOf, hlog]
  · rfl

theorem map_client_free (p : Event → Bool) (hlog : ∀ m, p (Event.log m) = false)
    (o : POracle) : FreeOf p (map_client o) := by
  unfold map_client
  split
  · rfl
  · refine freeOf_ebind p _ _ (freeOf_emit p _ (hlog _)) ?_
    intro x
    dsimp only
    split
    · simp [FreeOf, hlog]
    · rfl

theorem map_client_two_paths_free (p : Event → Bool) (hlog : ∀ m, p (Event.log m) = false)
    (o : POracle) (target : Str) : FreeOf p (map_client_two_paths o target) := by
  unfold map_client_two_paths
  split
  · rfl
  · refine freeOf_ebind p _ _ (freeOf_emit p _ (hlog _)) ?_
    intro x
    dsimp only
    split
    · simp [FreeOf, hlog]
    · rfl

theorem map_depots_silent_free (p : Event → Bool) (o : POracle) :
    FreeOf p (map_depots_silent o) := by
  unfold map_depots_silent
  split
  · rfl
  · exact freeOf_ecall p _

theorem sync_file_free (p : Event → Bool) (hlog : ∀ m, p (Event.log m) = false)
    (o : POracle) (depot : Str) : FreeOf p (sync_file o depot) := by
  unfold sync_file
  refine freeOf_ebind p _ _ (freeOf_emit p _ (hlog _)) ?_
  intro x
  dsimp only
  split
  · simp [FreeOf, hlog]
  · rfl

theorem checkout_file_free (p : Event → Bool) (hlog : ∀ m, p (Event.log m) = false)
    (hck : ∀ d, p (Event.checkout d) = false) (o : POracle) (depot cid : Str) :
    FreeOf p (checkout_file o depot cid) := by
  unfold checkout_file
  refine freeOf_ebind p _ _ (freeOf_emit p _ (hlog _)) ?_
  intro x
  dsimp only
  refine freeOf_ebind p _ _ (freeOf_ecall p _) ?_
  intro y
  dsimp only
  refine freeOf_ebind p _ _ (freeOf_emit p _ (hck _)) ?_
  intro z
  dsimp only
  exact freeOf_emit p _ (hlog _)

theorem update_lmkd_chimera_free (p : Event → Bool) (hlog : ∀ m, p (Event.log m) = false)
    (hbk : ∀ s, p (Event.backup s) = false) (hwr : ∀ s, p (Event.write s) = false)
    (o : POracle) (vince_path target_path : Str) :
    FreeOf p (update_lmkd_chimera o vince_path target_path) := by
  unfold update_lmkd_chimera
  refine freeOf_ebind p _ _ (freeOf_emit p _ (hlog _)) ?_
  intro x
  dsimp only
  refine freeOf_ebind p _ _ (freeOf_ecall p _) ?_
  intro vls
  dsimp only
  refine freeOf_ebind p _ _ (freeOf_ecall p _) ?_
  intro tls
  dsimp only
  refine freeOf_ebind p _ _ (freeOf_ecall p _) ?_
  intro u1
  dsimp only
  refine freeOf_ebind p _ _ (freeOf_emit p _ (hbk _)) ?_
  intro u2
  dsimp only
  refine freeOf_ebind p _ _ (freeOf_ecall p _) ?_
  intro u3
  dsimp only
  refine freeOf_ebind p _ _ (freeOf_emit p _ (hwr _)) ?_
  intro u4
  dsimp only
  exact freeOf_emit p _ (hlog _)

theorem apply_properties_free (p : Event → Bool)
    (hbk : ∀ s, p (Event.backup s) = false) (hwr : ∀ s, p (Event.write s) = false)
    (o : POracle) (path : Str) (properties : PDict × PDict) :
    (apply_properties_to_file o path properties).1.filter p = [] := by
  unfold apply_properties_to_file
  split
  · rfl
  · dsimp only
    split
    · simp [hbk]
    · split
      · simp [hbk]
      · simp [hbk, hwr]

/-! ### The drivers fire the error callback at most once -/

theorem bringupBody_errLeOne (o : POracle) (beni vince flumen : Str) :
    ErrLeOne (bringupBody o beni vince flumen) := by
  have hlog : ∀ m, isErr (Event.log m) = false := fun _ => rfl
  have hprog : ∀ n, isErr (Event.progress n) = false := fun _ => rfl
  have hck : ∀ d, isErr (Event.checkout d) = false := fun _ => rfl
  have hbk : ∀ s, isErr (Event.backup s) = false := fun _ => rfl
  have hwr : ∀ s, isErr (Event.write s) = false := fun _ => rfl
  unfold bringupBody
  refine errLeOne_ebind _ _ (freeOf_emit _ _ (hlog _)) ?_
  intro u0
  dsimp only
  split
  · exact errLeOne_ok _ _ (by simp [errCount, isErr])
  · refine errLeOne_ebind _ _ (freeOf_emit _ _ (hlog _)) ?_
    intro u1
    dsimp only
    refine errLeOne_ebind _ _ (freeOf_emits _ _ (targetChecks_free isErr hlog o _ _)) ?_
    intro u2
    dsimp only
    split
    · exact errLeOne_ok _ _ (by simp [errCount, isErr])
    · refine errLeOne_ebind _ _ (freeOf_ecall _ _) ?_
      intro vl
      dsimp only
      refine errLeOne_ebind _ _ (freeOf_ite _ _ _ _
        (freeOf_ebind _ _ _ (freeOf_ecall _ _) (fun _ => freeOf_epure _ _))
        (freeOf_epure _ _)) ?_
      intro bl
      dsimp only
      refine errLeOne_ebind _ _ (freeOf_ite _ _ _ _
        (freeOf_ebind _ _ _ (freeOf_ecall _ _) (fun _ => freeOf_epure _ _))
        (freeOf_epure _ _)) ?_
      intro fl
      dsimp only
      refine errLeOne_ebind _ _ (freeOf_emit _ _ (hprog _)) ?_
      intro u3
      dsimp only
      refine errLeOne_ebind _ _ (create_changelist_free isErr hlog o) ?_
      intro cid
      dsimp only
      refine errLeOne_ebind _ _ (freeOf_emit _ _ (hprog _)) ?_
      intro u4
      dsimp only
      refine errLeOne_ebind _ _ (freeOf_ite _ _ _ _ (map_client_free isErr hlog o)
        (freeOf_ite _ _ _ _ (map_client_two_paths_free isErr hlog o _)
          (map_client_two_paths_free isErr hlog o _))) ?_
      intro u5
      dsimp only
      refine errLeOne_ebind _ _ (freeOf_emit _ _ (hprog _)) ?_
      intro u6
      dsimp only
      refine errLeOne_ebind _ _ (sync_file_free isErr hlog o _) ?_
      intro u7
      dsimp only
      refine errLeOne_ebind _ _ (freeOf_ite _ _ _ _ (sync_file_free isErr hlog o _)
        (freeOf_epure _ _)) ?_
      intro u8
      dsimp only
      refine errLeOne_ebind _ _ (freeOf_ite _ _ _ _ (sync_file_free isErr hlog o _)
        (freeOf_epure _ _)) ?_
      intro u9
      dsimp only
      refine errLeOne_ebind _ _ (freeOf_emit _ _ (hlog _)) ?_
      intro u10
      dsimp only
      split
      · exact errLeOne_ok _ _ (by simp [errCount, isErr])
      · refine errLeOne_ebind _ _ (freeOf_ite _ _ _ _ (freeOf_emit _ _ (hlog _))
          (freeOf_ite _ _ _ _ (freeOf_emit _ _ (hlog _)) (freeOf_emit _ _ (hlog _)))) ?_
        intro u11
        dsimp only
        refine errLeOne_ebind _ _ (freeOf_emit _ _ (hprog _)) ?_
        intro u12
        dsimp only
        refine errLeOne_ebind _ _ (freeOf_ite _ _ _ _
          (checkout_file_free isErr hlog hck o _ _) (freeOf_epure _ _)) ?_
        intro u13
        dsimp only
        refine errLeOne_ebind _ _ (freeOf_ite _ _ _ _
          (checkout_file_free isErr hlog hck o _ _) (freeOf_epure _ _)) ?_
        intro u14
        dsimp only
        refine errLeOne_ebind _ _ (freeOf_emit _ _ (hprog _)) ?_
        intro u15
        dsimp only
        refine errLeOne_ebind _ _ (freeOf_ite _ _ _ _
          (update_lmkd_chimera_free isErr hlog hbk hwr o _ _) (freeOf_epure _ _)) ?_
        intro u16
        dsimp only
        refine errLeOne_ebind _ _ (freeOf_ite _ _ _ _
          (update_lmkd_chimera_free isErr hlog hbk hwr o _ _) (freeOf_epure _ _)) ?_
        intro u17
        dsimp only
        refine errLeOne_ebind _ _ (freeOf_emit _ _ (hprog _)) ?_
        intro u18
        dsimp only
        exact errLeOne_of_free _ (freeOf_emit _ _ (hlog _))

theorem loadBody_errLeOne (o : POracle) (beni flumen : Str) :
    ErrLeOne (loadBody o beni flumen) := by
  have hprog : ∀ n, isErr (Event.progress n) = false := fun _ => rfl
  have hinfo : ∀ t m, isErr (Event.info t m) = false := fun _ _ => rfl
  unfold loadBody
  dsimp only
  split
  · exact errLeOne_ok _ _ (by simp [errCount, isErr])
  · split
    · exact errLeOne_ok _ _ (by simp [errCount, isErr])
    · split
      · exact errLeOne_ok _ _ (by simp [errCount, isErr])
      · refine errLeOne_ebind _ _ (freeOf_emit _ _ (hprog _)) ?_
        intro u0
        dsimp only
        refine errLeOne_ebind _ _ (freeOf_ite _ _ _ _
          (freeOf_ebind _ _ _ (map_depots_silent_free isErr o)
            (fun _ => freeOf_ebind _ _ _ (freeOf_ecall _ _) (fun _ => freeOf_ecall _ _)))
          (freeOf_ite _ _ _ _
            (freeOf_ebind _ _ _ (map_depots_silent_free isErr o) (fun _ => freeOf_ecall _ _))
            (freeOf_ebind _ _ _ (map_depots_silent_free isErr o) (fun _ => freeOf_ecall _ _)))) ?_
        intro u1
        dsimp only
        refine errLeOne_ebind _ _ (freeOf_emit _ _ (hprog _)) ?_
        intro u2
        dsimp only
        refine errLeOne_ebind _ _ (freeOf_ite _ _ _ _
          (freeOf_ebind _ _ _ (freeOf_ecall _ _) (fun _ => freeOf_epure _ _))
          (freeOf_epure _ _)) ?_
        intro beniProps
        dsimp only
        split
        · exact errLeOne_ok _ _ (by simp [errCount, isErr])
        · refine errLeOne_ebind _ _ (freeOf_ite _ _ _ _
            (freeOf_ebind _ _ _ (freeOf_ecall _ _) (fun _ => freeOf_epure _ _))
            (freeOf_epure _ _)) ?_
          intro flumenProps
          dsimp only
          split
          · exact errLeOne_ok _ _ (by simp [errCount, isErr])
          · refine errLeOne_ebind _ _ (freeOf_emit _ _ (hprog _)) ?_
            intro u3
            dsimp only
            refine errLeOne_ebind _ _ (freeOf_ite _ _ _ _
              (freeOf_ite _ _ _ _ (freeOf_emit _ _ (hinfo _ _)) (freeOf_epure _ _))
              (freeOf_epure _ _)) ?_
            intro u4
            dsimp only
            exact errLeOne_of_free _ (freeOf_ebind _ _ _ (freeOf_emit _ _ (hprog _))
              (fun _ => freeOf_epure _ _))

theorem tuningBody_errLeOne (o : POracle) (beni vince flumen : Str)
    (properties : PDict × PDict) : ErrLeOne (tuningBody o beni vince flumen properties) := by
  have hprog : ∀ n, isErr (Event.progress n) = false := fun _ => rfl
  have hck : ∀ d, isErr (Event.checkout d) = false := fun _ => rfl
  have hbk : ∀ s, isErr (Event.backup s) = false := fun _ => rfl
  have hwr : ∀ s, isErr (Event.write s) = false := fun _ => rfl
  have hinfo : ∀ t m, isErr (Event.info t m) = false := fun _ _ => rfl
  unfold tuningBody
  dsimp only
  split
  · exact errLeOne_ok _ _ (by simp [errCount, isErr])
  · refine errLeOne_ebind _ _ (freeOf_emit _ _ (hprog _)) ?_
    intro u0
    dsimp only
    refine errLeOne_ebind _ _ (freeOf_ecall _ _) ?_
    intro cid
    dsimp only
    refine errLeOne_ebind _ _ (freeOf_emit _ _ (hprog _)) ?_
    intro u1
    dsimp only
    refine errLeOne_ebind _ _ (freeOf_ite _ _ _ _
      (freeOf_ebind _ _ _ (freeOf_ecall _ _) (fun _ => freeOf_emit _ _ (hck _)))
      (freeOf_epure _ _)) ?_
    intro u2
    dsimp only
    refine errLeOne_ebind _ _ (freeOf_ite _ _ _ _
      (freeOf_ebind _ _ _ (freeOf_ecall _ _) (fun _ => freeOf_emit _ _ (hck _)))
      (freeOf_epure _ _)) ?_
    intro u3
    dsimp only
    refine errLeOne_ebind _ _ (freeOf_emit _ _ (hprog _)) ?_
    intro u4
    dsimp only
    refine errLeOne_ebind _ _ (freeOf_ite _ _ _ _
      (freeOf_ebind _ _ _ (freeOf_ecall _ _)
        (fun bl => apply_properties_free isErr hbk hwr o bl properties))
      (freeOf_epure _ _)) ?_
    intro beniUpd
    dsimp only
    refine errLeOne_ebind _ _ (freeOf_ite _ _ _ _
      (freeOf_ebind _ _ _ (freeOf_ecall _ _)
        (fun fl => apply_properties_free isErr hbk hwr o fl properties))
      (freeOf_epure _ _)) ?_
    intro flumenUpd
    dsimp only
    refine errLeOne_ebind _ _ (freeOf_emit _ _ (hprog _)) ?_
    intro u5
    dsimp only
    refine errLeOne_ebind_final _ _ ?_ ?_
    · split
      · exact errLeOne_of_free _ (freeOf_emit _ _ (hinfo _ _))
      · exact errLeOne_ok _ _ (by simp [errCount, isErr])
    · intro u6
      exact ⟨freeOf_emit _ _ (hprog _), (), rfl⟩

/-! ### C8: error-callback discipline of the three drivers -/

/-- C8 (amended): for every oracle and all arguments, each driver fires
the error callback at most once and never lets an exception escape (the
drivers are total functions into traces); moreover every uncaught
exception funnels into the driver's top-level catch, which appends exactly
its fixed suffix — for `run_bringup_process` a log, one error callback and
a progress reset to 0; for `run_tuning_process` one error callback and a
progress reset to 0; for `load_properties_for_tuning` one error callback
with NO progress reset.  (That the claimed reset-to-0 is missing on the
early-return failure paths is the counterexample.) -/
theorem workflow_error_discipline (o : POracle) (beni vince flumen : Str)
    (properties : PDict × PDict) :
    errCount (run_bringup_process o beni vince flumen) ≤ 1 ∧
    errCount (run_tuning_process o beni vince flumen properties) ≤ 1 ∧
    errCount (load_properties_for_tuning o beni flumen).1 ≤ 1 ∧
    run_bringup_process o beni vince flumen =
      (bringupBody o beni vince flumen).1 ++
        (match (bringupBody o beni vince flumen).2 with
         | Except.ok _ => []
         | Except.error e => [Event.log (str "[ERROR] " ++ e),
             Event.error (str "Process Error") e, Event.progress 0]) ∧
    run_tuning_process o beni vince flumen properties =
      (tuningBody o beni vince flumen properties).1 ++
        (match (tuningBody o beni vince flumen properties).2 with
         | Except.ok _ => []
         | Except.error e => [Event.error (str "Tuning Process Error") e, Event.progress 0]) ∧
    (load_properties_for_tuning o beni flumen).1 =
      (loadBody o beni flumen).1 ++
        (match (loadBody o beni flumen).2 with
         | Except.ok _ => []
         | Except.error e => [Event.error (str "Load Properties Error") e]) := by
  obtain ⟨hb1, hb2⟩ := bringupBody_errLeOne o beni vince flumen
  obtain ⟨ht1, ht2⟩ := tuningBody_errLeOne o beni vince flumen properties
  obtain ⟨hl1, hl2⟩ := loadBody_errLeOne o beni flumen
  refine ⟨?_, ?_, ?_, ?_, ?_, ?_⟩
  · rcases hbb : bringupBody o beni vince flumen with ⟨evs, r⟩
    rw [hbb] at hb1 hb2
    cases r with
    | ok x => simpa [run_bringup_process, hbb] using hb1
    | error e =>
      have h0 : errCount evs = 0 := hb2 e rfl
      have hx : run_bringup_process o beni vince flumen =
          evs ++ [Event.log (str "[ERROR] " ++ e), Event.error (str "Process Error") e,
            Event.progress 0] := by
        simp [run_bringup_process, hbb]
      have h1 : errCount [Event.log (str "[ERROR] " ++ e),
          Event.error (str "Process Error") e, Event.progress 0] = 1 := by
        simp [errCount, isErr]
      rw [hx, errCount_append, h0, h1]
  · rcases htt : tuningBody o beni vince flumen properties with ⟨evs, r⟩
    rw [htt] at ht1 ht2
    cases r with
    | ok x => simpa [run_tuning_process, htt] using ht1
    | error e =>
      have h0 : errCount evs = 0 := ht2 e rfl
      have hx : run_tuning_process o beni vince flumen properties =
          evs ++ [Event.error (str "Tuning Process Error") e, Event.progress 0] := by
        simp [run_tuning_process, htt]
      have h1 : errCount [Event.error (str "Tuning Process Error") e,
          Event.progress 0] = 1 := by
        simp [errCount, isErr]
      rw [hx, errCount_append, h0, h1]
  · rcases hll : loadBody o beni flumen with ⟨evs, r⟩
    rw [hll] at hl1 hl2
    cases r with
    | ok x => simpa [load_properties_for_tuning, hll] using hl1
    | error e =>
      have h0 : errCount evs = 0 := hl2 e rfl
      have hx : (load_properties_for_tuning o beni flumen).1 =
          evs ++ [Event.error (str "Load Properties Error") e] := by
        simp [load_properties_for_tuning, hll]
      have h1 : errCount [Event.error (str "Load Properties Error") e] = 1 := by
        simp [errCount, isErr]
      rw [hx, errCount_append, h0, h1]
  · rcases hbb : bringupBody o beni vince flumen with ⟨evs, r⟩
    cases r <;> simp [run_bringup_process, hbb]
  · rcases htt : tuningBody o beni vince flumen properties with ⟨evs, r⟩
    cases r <;> simp [run_tuning_process, htt]
  · rcases hll : loadBody o beni flumen with ⟨evs, r⟩
    cases r <;> simp [load_properties_for_tuning, hll]

/-- C8 (counterexample): three failure paths that report an error without
resetting the progress indicator to 0 — the property-absence early return
of `run_bringup_process` leaves progress at 35, a failed extraction in
`load_properties_for_tuning` leaves it at 60, and the "Update Failed" path
of `run_tuning_process` even advances it to 100. -/
theorem failure_paths_skip_progress_reset :
    (errCount (run_bringup_process oracleAbs (str "//b") (str "//v") []) = 1 ∧
     Event.progress 35 ∈ run_bringup_process oracleAbs (str "//b") (str "//v") [] ∧
     Event.progress 0 ∉ run_bringup_process oracleAbs (str "//b") (str "//v") []) ∧
    (errCount (load_properties_for_tuning oracleAbs (str "//b") []).1 = 1 ∧
     Event.progress 60 ∈ (load_properties_for_tuning oracleAbs (str "//b") []).1 ∧
     Event.progress 0 ∉ (load_properties_for_tuning oracleAbs (str "//b") []).1) ∧
    (errCount (run_tuning_process oracleApplyFail (str "//b") (str "//v") []
        ([(str "a", str "1")], [])) = 1 ∧
     Event.progress 100 ∈ run_tuning_process oracleApplyFail (str "//b") (str "//v") []
        ([(str "a", str "1")], []) ∧
     Event.progress 0 ∉ run_tuning_process oracleApplyFail (str "//b") (str "//v") []
        ([(str "a", str "1")], [])) := by
  decide

/-! ### C9: the property-absence guard of the bringup workflow -/

theorem abort_ebind {α β : Type} (a : ERes α) (f : α → ERes β)
    (hae : FreeOf isErr a) (ham : FreeOf isMut a)
    (hf : ∀ x, AbortsWithOneError (f x)) : AbortsWithOneError (ebind a f) := by
  obtain ⟨evs, r⟩ := a
  have hae' : evs.filter isErr = [] := hae
  have ham' : evs.filter isMut = [] := ham
  cases r with
  | ok x =>
    obtain ⟨m1, m2, m3⟩ := hf x
    refine ⟨?_, ?_, ?_⟩
    · show (evs ++ (f x).1).filter isMut = []
      rw [List.filter_append, ham', m1]
      rfl
    · intro y hy
      have hy' : (f x).2 = Except.ok y := hy
      show errCount (evs ++ (f x).1) = 1
      rw [errCount_append, errCount_eq_zero hae', m2 y hy']
    · intro e he
      have he' : (f x).2 = Except.error e := he
      show errCount (evs ++ (f x).1) = 0
      rw [errCount_append, errCount_eq_zero hae', m3 e he']
  | error e =>
    refine ⟨ham', ?_, fun e' _ => errCount_eq_zero hae'⟩
    intro y hy
    exact absurd hy (by simp [ebind])

theorem abort_ebind_ecall {α β : Type} (r : Except Str α) (f : α → ERes β)
    (hf : ∀ x, r = Except.ok x → AbortsWithOneError (f x)) :
    AbortsWithOneError (ebind (ecall r) f) := by
  cases r with
  | ok x => exact hf x rfl
  | error e =>
    refine ⟨rfl, ?_, fun e' _ => rfl⟩
    intro y hy
    exact absurd hy (by simp [ebind, ecall])

/-- If the reference (VINCE) file turns out to contain neither property
category, the bringup body fires exactly one error callback and performs no
checkout, backup, or write — whatever the other collaborators do. -/
theorem bringupBody_absence_aborts (o : POracle) (beni vince flumen : Str)
    (hv : o.validate_depot_path vince = true)
    (ht : (targetChecks o beni flumen).2.1 = true ∨ (targetChecks o beni flumen).2.2 = true)
    (habs : ∀ s, o.depot_to_local vince = Except.ok s →
      validate_properties_exist (Except.toOption (o.read_content s)) = (false, false)) :
    AbortsWithOneError (bringupBody o beni vince flumen) := by
  have hlogE : ∀ m, isErr (Event.log m) = false := fun _ => rfl
  have hlogM : ∀ m, isMut (Event.log m) = false := fun _ => rfl
  have hprogE : ∀ n, isErr (Event.progress n) = false := fun _ => rfl
  have hprogM : ∀ n, isMut (Event.progress n) = false := fun _ => rfl
  unfold bringupBody
  refine abort_ebind _ _ (freeOf_emit _ _ (hlogE _)) (freeOf_emit _ _ (hlogM _)) ?_
  intro u0
  dsimp only
  simp only [hv, Bool.not_true, Bool.false_eq_true, if_false]
  refine abort_ebind _ _ (freeOf_emit _ _ (hlogE _)) (freeOf_emit _ _ (hlogM _)) ?_
  intro u1
  dsimp only
  refine abort_ebind _ _ (freeOf_emits _ _ (targetChecks_free isErr hlogE o _ _))
    (freeOf_emits _ _ (targetChecks_free isMut hlogM o _ _)) ?_
  intro u2
  dsimp only
  have hflag : (!(targetChecks o beni flumen).2.1 && !(targetChecks o beni flumen).2.2) =
      false := by
    rcases ht with h | h <;> simp [h]
  simp only [hflag, Bool.false_eq_true, if_false]
  refine abort_ebind_ecall _ _ ?_
  intro vl hvl
  refine abort_ebind _ _
    (freeOf_ite _ _ _ _ (freeOf_ebind _ _ _ (freeOf_ecall _ _) (fun _ => freeOf_epure _ _))
      (freeOf_epure _ _))
    (freeOf_ite _ _ _ _ (freeOf_ebind _ _ _ (freeOf_ecall _ _) (fun _ => freeOf_epure _ _))
      (freeOf_epure _ _)) ?_
  intro bl
  dsimp only
  refine abort_ebind _ _
    (freeOf_ite _ _ _ _ (freeOf_ebind _ _ _ (freeOf_ecall _ _) (fun _ => freeOf_epure _ _))
      (freeOf_epure _ _))
    (freeOf_ite _ _ _ _ (freeOf_ebind _ _ _ (freeOf_ecall _ _) (fun _ => freeOf_epure _ _))
      (freeOf_epure _ _)) ?_
  intro fl
  dsimp only
  refine abort_ebind _ _ (freeOf_emit _ _ (hprogE _)) (freeOf_emit _ _ (hprogM _)) ?_
  intro u3
  dsimp only
  refine abort_ebind _ _ (create_changelist_free isErr hlogE o)
    (create_changelist_free isMut hlogM o) ?_
  intro cid
  dsimp only
  refine abort_ebind _ _ (freeOf_emit _ _ (hprogE _)) (freeOf_emit _ _ (hprogM _)) ?_
  intro u4
  dsimp only
  refine abort_ebind _ _
    (freeOf_ite _ _ _ _ (map_client_free isErr hlogE o)
      (freeOf_ite _ _ _ _ (map_client_two_paths_free isErr hlogE o _)
        (map_client_two_paths_free isErr hlogE o _)))
    (freeOf_ite _ _ _ _ (map_client_free isMut hlogM o)
      (freeOf_ite _ _ _ _ (map_client_two_paths_free isMut hlogM o _)
        (map_client_two_paths_free isMut hlogM o _))) ?_
  intro u5
  dsimp only
  refine abort_ebind _ _ (freeOf_emit _ _ (hprogE _)) (freeOf_emit _ _ (hprogM _)) ?_
  intro u6
  dsimp only
  refine abort_ebind _ _ (sync_file_free isErr hlogE o _) (sync_file_free isMut hlogM o _) ?_
  intro u7
  dsimp only
  refine abort_ebind _ _
    (freeOf_ite _ _ _ _ (sync_file_free isErr hlogE o _) (freeOf_epure _ _))
    (freeOf_ite _ _ _ _ (sync_file_free isMut hlogM o _) (freeOf_epure _ _)) ?_
  intro u8
  dsimp only
  refine abort_ebind _ _
    (freeOf_ite _ _ _ _ (sync_file_free isErr hlogE o _) (freeOf_epure _ _))
    (freeOf_ite _ _ _ _ (sync_file_free isMut hlogM o _) (freeOf_epure _ _)) ?_
  intro u9
  dsimp only
  refine abort_ebind _ _ (freeOf_emit _ _ (hlogE _)) (freeOf_emit _ _ (hlogM _)) ?_
  intro u10
  dsimp only
  have hcond : (!(validate_properties_exist (Except.toOption (o.read_content vl))).1 &&
      !(validate_properties_exist (Except.toOption (o.read_content vl))).2) = true := by
    rw [habs vl hvl]
    rfl
  simp only [hcond, if_true]
  refine ⟨by simp [emits, isMut], fun x _ => by simp [emits, errCount, isErr],
    fun e h => nomatch h⟩

/-- C9: property-absence handling of the bringup workflow.  (i) If the
reference (VINCE) file contains neither the LMKD/DHA nor the Chimera
header, the error callback fires exactly once and no target file is
checked out, backed up, or written — whatever the other collaborators do.
(ii) If every external call succeeds and the reference file contains
exactly one of the two categories, the run logs a warning, fires no error,
and goes on to check out and rewrite each processed target. -/
theorem bringup_property_guards (o : POracle) (beni vince flumen : Str) :
    ((o.validate_depot_path vince = true) →
     ((targetChecks o beni flumen).2.1 = true ∨ (targetChecks o beni flumen).2.2 = true) →
     (∀ s, o.depot_to_local vince = Except.ok s →
        validate_properties_exist (Except.toOption (o.read_content s)) = (false, false)) →
     errCount (run_bringup_process o beni vince flumen) = 1 ∧
       (run_bringup_process o beni vince flumen).filter isMut = []) ∧
    (∀ (dtl : Str → Str) (rl : Str → List Line) (cid cn cv : Str),
     o.validate_depot_path vince = true →
     ((targetChecks o beni flumen).2.1 = true ∨ (targetChecks o beni flumen).2.2 = true) →
     (∀ p, o.depot_to_local p = Except.ok (dtl p)) →
     o.client_name = some cn →
     o.create_changelist = Except.ok cid →
     o.map_depots = Except.ok () →
     (∀ p, o.sync_file p = Except.ok ()) →
     (∀ p c, o.checkout_file p c = Except.ok ()) →
     (∀ p, o.read_lines p = Except.ok (rl p)) →
     (∀ p, o.copy_file p = Except.ok ()) →
     (∀ p ls, o.write_file p ls = Except.ok ()) →
     o.read_content (dtl vince) = Except.ok cv →
     (validate_properties_exist (some cv) = (true, false) ∨
      validate_properties_exist (some cv) = (false, true)) →
     errCount (run_bringup_process o beni vince flumen) = 0 ∧
       (Event.log (str "[WARNING] VINCE file does not contain LMKD property") ∈
          run_bringup_process o beni vince flumen ∨
        Event.log (str "[WARNING] VINCE file does not contain Chimera property") ∈
          run_bringup_process o beni vince flumen) ∧
       ((targetChecks o beni flumen).2.1 = true →
         Event.checkout beni ∈ run_bringup_process o beni vince flumen ∧
         Event.write (dtl beni) ∈ run_bringup_process o beni vince flumen) ∧
       ((targetChecks o beni flumen).2.2 = true →
         Event.checkout flumen ∈ run_bringup_process o beni vince flumen ∧
         Event.write (dtl flumen) ∈ run_bringup_process o beni vince flumen)) := by
  constructor
  · intro hv ht habs
    obtain ⟨m1, m2, m3⟩ := bringupBody_absence_aborts o beni vince flumen hv ht habs
    rcases hbb : bringupBody o beni vince flumen with ⟨evs, r⟩
    rw [hbb] at m1 m2 m3
    cases r with
    | ok x =>
      have h1 : errCount evs = 1 := m2 x rfl
      have htr : run_bringup_process o beni vince flumen = evs := by
        simp [run_bringup_process, hbb]
      rw [htr]
      exact ⟨h1, m1⟩
    | error e =>
      have h0 : errCount evs = 0 := m3 e rfl
      have htr : run_bringup_process o beni vince flumen =
          evs ++ [Event.log (str "[ERROR] " ++ e), Event.error (str "Process Error") e,
            Event.progress 0] := by
        simp [run_bringup_process, hbb]
      rw [htr]
      constructor
      · rw [errCount_append, h0]
        simp [errCount, isErr]
      · rw [List.filter_append, m1]
        simp [isMut]
  · intro dtl rl cid cn cv hv ht hdtl hcn hcl hmap hsync hco hrl hcp hwf hrc hcat
    have hfree := targetChecks_free isErr (fun _ => rfl) o beni flumen
    by_cases hpb : (targetChecks o beni flumen).2.1 = true
    · by_cases hpf : (targetChecks o beni flumen).2.2 = true
      · rcases hcat with h1 | h1 <;>
          simp [run_bringup_process, bringupBody, create_changelist, map_client,
            map_client_two_paths, sync_file, checkout_file, update_lmkd_chimera,
            ebind, emit, emits, ecall, epure, hv, hpb, hpf, hdtl, hcn, hcl, hmap,
            hsync, hco, hrl, hcp, hwf, hrc, h1, Except.toOption, errCount, isErr,
            hfree, List.filter_append]
      · have hpf' : (targetChecks o beni flumen).2.2 = false := by simpa using hpf
        rcases hcat with h1 | h1 <;>
          simp [run_bringup_process, bringupBody, create_changelist, map_client,
            map_client_two_paths, sync_file, checkout_file, update_lmkd_chimera,
            ebind, emit, emits, ecall, epure, hv, hpb, hpf', hdtl, hcn, hcl, hmap,
            hsync, hco, hrl, hcp, hwf, hrc, h1, Except.toOption, errCount, isErr,
            hfree, List.filter_append]
    · have hpb' : (targetChecks o beni flumen).2.1 = false := by simpa using hpb
      by_cases hpf : (targetChecks o beni flumen).2.2 = true
      · rcases hcat with h1 | h1 <;>
          simp [run_bringup_process, bringupBody, create_changelist, map_client,
            map_client_two_paths, sync_file, checkout_file, update_lmkd_chimera,
            ebind, emit, emits, ecall, epure, hv, hpb', hpf, hdtl, hcn, hcl, hmap,
            hsync, hco, hrl, hcp, hwf, hrc, h1, Except.toOption, errCount, isErr,
            hfree, List.filter_append]
      · have hpf' : (targetChecks o beni flumen).2.2 = false := by simpa using hpf
        rw [hpb'] at ht
        rw [hpf'] at ht
        simp at ht

/-- C9 (witness): the guard theorem applied to a concrete oracle whose
reference file contains neither header (part i), and to one whose
reference file contains only the LMKD header (part ii). -/
theorem bringup_property_guards_witness :
    (errCount (run_bringup_process oracleAbs (str "//b") (str "//v") []) = 1 ∧
     (run_bringup_process oracleAbs (str "//b") (str "//v") []).filter isMut = []) ∧
    (errCount (run_bringup_process oraclePartial (str "//b") (str "//v") []) = 0 ∧
     (Event.log (str "[WARNING] VINCE file does not contain LMKD property") ∈
        run_bringup_process oraclePartial (str "//b") (str "//v") [] ∨
      Event.log (str "[WARNING] VINCE file does not contain Chimera property") ∈
        run_bringup_process oraclePartial (str "//b") (str "//v") []) ∧
     Event.checkout (str "//b") ∈ run_bringup_process oraclePartial (str "//b") (str "//v") [] ∧
     Event.write (str "//b") ∈ run_bringup_process oraclePartial (str "//b") (str "//v") []) :=
  ⟨(bringup_property_guards oracleAbs (str "//b") (str "//v") []).1 (by decide)
      (Or.inl (by decide))
      (fun s hs => by
        injection hs with h
        subst h
        decide),
   by
     have h := (bringup_property_guards oraclePartial (str "//b") (str "//v") []).2
       (fun p => p) (fun _ => []) (str "100") (str "u") (str "# LMKD property")
       (by decide) (Or.inl (by decide)) (fun p => rfl) rfl rfl rfl (fun p => rfl)
       (fun p c => rfl) (fun p => rfl) (fun p => rfl) (fun p ls => rfl) rfl
       (Or.inl (by decide))
     exact ⟨h.1, h.2.1, (h.2.2.1 (by decide)).1, (h.2.2.1 (by decide)).2⟩⟩

end P4Tool
